import Mathlib

/-!
Verification development for `rllib/env/single_agent_env_runner.py`
(`SingleAgentEnvRunner`): a shallow embedding of the sampling engine
(`sample`, `_sample_timesteps`, `_sample_episodes`, `get_metrics`,
`assert_healthy`, construction) together with proofs of the behavioural
properties of the sampling loop, episode lifecycle and metrics accounting.

Modelling conventions:
* Observations, actions, rewards and infos are modelled as `Int`
  (the engine never inspects their values).
* Batched per-slot data (`obs[N]`, `rewards[N]`, ...) is modelled as
  functions `Nat → Int` indexed by the sub-environment slot.
* The vectorized gym environment and the RLModule are external
  collaborators; they are modelled as deterministic state-threading
  function records (`VecEnv`, `RLModule`).
* Recurrent state tensors are an abstract type `σ`; the batched state
  dict of the source is a per-slot function `Nat → σ` (the string keys
  of the dict are data-parallel and carry no control flow).
* Python exceptions are modelled with `Except String`; unbounded `while`
  loops are modelled with explicit fuel (structural recursion), a result
  of `none` meaning the source would still be looping.
* Lifecycle callbacks and environment interactions are recorded in an
  event log so that temporal claims about them can be stated.
* Python object identity of episode objects is modelled by the `inst`
  field: every construction of a `SingleAgentEpisode` (including `cut`)
  allocates a fresh `inst` from a counter, while `id_` models the
  episode id (preserved across `cut`).
-/

/-- Modelled from the spec: `SingleAgentEpisode`
(`ray.rllib.env.single_agent_episode`, not part of the given sources).
Spec §3: "unique identifier; ordered sequence of observations
(length = steps+1); ordered sequence of actions, rewards, per-step
auxiliary info dicts, extra model outputs (length = steps);
terminated/truncated flags; monotonically increasing step counter `t`;
finalized flag". -/
structure SingleAgentEpisode where
  id_ : Nat
  inst : Nat
  observations : List Int
  actions : List Int
  rewards : List Int
  infos : List Int
  extraModelOutputs : List (List (String × Int))
  terminated : Bool
  truncated : Bool
  t : Nat
  isFinalized : Bool
deriving DecidableEq

instance : Inhabited SingleAgentEpisode :=
  ⟨⟨0, 0, [], [], [], [], [], false, false, 0, false⟩⟩

/-- Modelled from the spec: `SingleAgentEpisode()` — "created empty". -/
def SingleAgentEpisode.new (id inst : Nat) : SingleAgentEpisode :=
  ⟨id, inst, [], [], [], [], [], false, false, 0, false⟩

/-- Modelled from the spec: `SingleAgentEpisode(observations=[obs], infos=[info])` —
an episode "seeded" directly with the post-reset observation and info. -/
def SingleAgentEpisode.newWithReset (id inst : Nat) (obs info : Int) : SingleAgentEpisode :=
  ⟨id, inst, [obs], [], [], [info], [], false, false, 0, false⟩

/-- Modelled from the spec: `add_env_reset` — "seeded via "add reset"
(one observation, one info)". -/
def SingleAgentEpisode.addEnvReset (e : SingleAgentEpisode) (obs info : Int) :
    SingleAgentEpisode :=
  { e with observations := e.observations ++ [obs], infos := e.infos ++ [info] }

/-- Modelled from the spec: `add_env_step` — "grown via "add step"
(one observation, action, reward, info, extras, optional terminal flags)";
`t` counts recorded steps. -/
def SingleAgentEpisode.addEnvStep (e : SingleAgentEpisode) (obs act rew info : Int)
    (extra : List (String × Int)) (term trunc : Bool) : SingleAgentEpisode :=
  { e with
    observations := e.observations ++ [obs]
    actions := e.actions ++ [act]
    rewards := e.rewards ++ [rew]
    infos := e.infos ++ [info]
    extraModelOutputs := e.extraModelOutputs ++ [extra]
    terminated := term
    truncated := trunc
    t := e.t + 1 }

/-- Modelled from the spec: `finalize` — "mark an episode immutable and
complete, eligible for return and metrics" (in the source `finalize()`
converts the buffers to numpy and returns the episode itself). -/
def SingleAgentEpisode.finalize (e : SingleAgentEpisode) : SingleAgentEpisode :=
  { e with isFinalized := true }

/-- Modelled from the spec: `cut` — "chunk boundary mid-episode: produces a
new open episode continuing from the last observation/state, preserving
identity across chunks for metrics aggregation".  The continuation is a new
object (fresh `inst`) with the same `id_` and `t = 0`. -/
def SingleAgentEpisode.cut (e : SingleAgentEpisode) (newInst : Nat) : SingleAgentEpisode :=
  ⟨e.id_, newInst, [e.observations.getLastD 0], [], [], [e.infos.getLastD 0], [],
    false, false, 0, false⟩

/-- Modelled from the spec: `len(episode)` — "`t` equals number of recorded
steps" (observations have length `t + 1`). -/
def SingleAgentEpisode.epLen (e : SingleAgentEpisode) : Nat := e.t

/-- Modelled from the spec: `get_return()` — total reward of the episode. -/
def SingleAgentEpisode.getReturn (e : SingleAgentEpisode) : Int := e.rewards.sum

/-- Modelled from the spec: `is_done` — terminated or truncated. -/
def SingleAgentEpisode.isDone (e : SingleAgentEpisode) : Bool := e.terminated || e.truncated

/-- One entry of the runner's event log: an environment interaction, the
`on_sample_end` callback, or a per-episode lifecycle callback
(`which`, episode id, episode object identity). -/
inductive REvent where
  | envReset : REvent
  | envStep : REvent
  | onSampleEnd : REvent
  | cb (which : String) (epId : Nat) (inst : Nat) : REvent
deriving DecidableEq

/-- Batched output of one `env.step` call (line 282 / 460): per-slot next
observations, rewards, terminated/truncated flags, infos, and — for done
slots — the terminal observation/info the gym vector env provides under
`infos[i]["final_observation"]` / `infos[i]["final_info"]`. -/
structure EnvStepOut where
  obs : Nat → Int
  rewards : Nat → Int
  terminateds : Nat → Bool
  truncateds : Nat → Bool
  infos : Nat → Int
  finalObs : Nat → Int
  finalInfos : Nat → Int

/-- The vectorized gym environment (external collaborator): `numEnvs`
sub-environment slots and deterministic, state-threading `reset`, `step`
and `action_space.sample` functions over an abstract `Nat` state that also
covers the sampler's RNG. -/
structure VecEnv where
  numEnvs : Nat
  resetFn : Nat → (Nat → Int) × (Nat → Int) × Nat
  stepFn : Nat → (Nat → Int) → EnvStepOut × Nat
  actionSample : Nat → (Nat → Int) × Nat

/-- Output of one RLModule forward pass: the `fwd_out` dict minus its
`STATE_OUT` entry, as an association list from keys to per-slot values,
plus the optional `STATE_OUT` batched recurrent state. -/
structure FwdOut (σ : Type) where
  entries : List (String × (Nat → Int))
  stateOut : Option (Nat → σ)

/-- The RLModule (external collaborator).  `hasInitialState` models
whether `get_initial_state()` yields a non-empty state dict (an empty dict
makes every state operation in the runner a no-op, exactly like a module
without recurrent state); `initialState` is the per-slot initial-state
template.  `distSampleExploration` / `distSampleInference` model sampling
actions and log-probabilities from the action distribution built from the
distribution inputs (lines 645-655). -/
structure RLModule (σ : Type) where
  hasInitialState : Bool
  initialState : σ
  forwardExploration : (Nat → σ) → (Nat → Int) → FwdOut σ
  forwardInference : (Nat → σ) → (Nat → Int) → FwdOut σ
  distSampleExploration : (Nat → Int) → (Nat → Int) × (Nat → Int)
  distSampleInference : (Nat → Int) → (Nat → Int) × (Nat → Int)

/-- Lines 188-194 / 405-411: the replicated initial state, `some` exactly
when a module is present and declares a (non-empty) initial state —
`hasattr(None, "get_initial_state")` is false, so a missing module yields
the empty dict. -/
def initialStatesOf {σ : Type} (module : Option (RLModule σ)) : Option σ :=
  match module with
  | some m => if m.hasInitialState then some m.initialState else none
  | none => none

/-- Pointwise update of a batched per-slot value (numpy row assignment
`arr[i] = v`). -/
def updFn {α : Type} (f : Nat → α) (i : Nat) (v : α) : Nat → α :=
  fun j => if j = i then v else f j

/-- Python dict assignment `d[k] = v`: overwrite in place if the key
exists, else append (insertion order preserved). -/
def dictInsert (d : List (String × Int)) (k : String) (v : Int) : List (String × Int) :=
  if (d.find? (fun kv => kv.1 == k)).isSome then
    d.map (fun kv => if kv.1 == k then (kv.1, v) else kv)
  else d ++ [(k, v)]

/-- Substring check (`"actions" in k` on Python strings). -/
def strContainsSub (s pat : String) : Bool :=
  (List.range (s.length + 1)).any (fun i => pat.data.isPrefixOf (s.data.drop i))

/-- Lines 296-301: per-slot `extra_model_output` in `_sample_timesteps` —
every `fwd_out` entry whose key is not equal to `"actions"`, evaluated at
the slot, then `extra_model_output["action_logp"] = action_logp[i]`. -/
def extraModelOutputT (entries : List (String × (Nat → Int))) (logp : Nat → Int)
    (i : Nat) : List (String × Int) :=
  dictInsert
    ((entries.filter (fun kv => kv.1 != "actions")).map (fun kv => (kv.1, kv.2 i)))
    "action_logp" (logp i)

/-- Lines 469-475: per-slot `extra_model_output` in `_sample_episodes` —
note the source excludes every key *containing* `"actions"` as a substring
(`SampleBatch.ACTIONS not in k`), unlike `_sample_timesteps`. -/
def extraModelOutputE (entries : List (String × (Nat → Int))) (logp : Nat → Int)
    (i : Nat) : List (String × Int) :=
  dictInsert
    ((entries.filter (fun kv => !(strContainsSub kv.1 "actions"))).map
      (fun kv => (kv.1, kv.2 i)))
    "action_logp" (logp i)

/-- Lookup of a `fwd_out` entry by key. -/
def entryLookup (entries : List (String × (Nat → Int))) (k : String) :
    Option (Nat → Int) :=
  (entries.find? (fun kv => kv.1 == k)).map (·.2)

/-- Lines 627-658, `_sample_actions_if_necessary`: use the provided actions
and log-probabilities if the module emitted them, else sample from the
action distribution built from the distribution inputs.  The source's
missing-key dict accesses (a `KeyError`) are modelled with a zero default;
no claim exercises those paths. -/
def sampleActionsIfNecessary {σ : Type} (m : RLModule σ) (fwd : FwdOut σ)
    (explore : Bool) : (Nat → Int) × (Nat → Int) :=
  match entryLookup fwd.entries "actions" with
  | some acts => (acts, (entryLookup fwd.entries "action_logp").getD (fun _ => 0))
  | none =>
    let distInputs := (entryLookup fwd.entries "action_dist_inputs").getD (fun _ => 0)
    if explore then m.distSampleExploration distInputs else m.distSampleInference distInputs

/-- The mutable state of a `SingleAgentEnvRunner` instance: the env state
(the env object itself is the immutable `VecEnv` record), the optional
RLModule, and the fields set up in `__init__` (lines 98-112), plus the
id/instance counters and the event log of the embedding. -/
structure RunnerState (σ : Type) where
  envState : Nat
  module : Option (RLModule σ)
  needsInitialReset : Bool
  episodes : List SingleAgentEpisode
  statesSlots : List (Option σ)
  doneEpisodesForMetrics : List SingleAgentEpisode
  ongoingEpisodesForMetrics : List (Nat × List SingleAgentEpisode)
  tsSinceLastMetrics : Nat
  nextId : Nat
  nextInst : Nat
  log : List REvent

/-- Loop-carried state of the `while ts < num_timesteps` loop of
`_sample_timesteps` (lines 243-353): env state, current batched
observation and recurrent state, per-slot episodes and stored states,
the accumulating `done_episodes_to_return`, the id/instance counters,
and the event log. -/
structure TLoop (σ : Type) where
  envState : Nat
  obs : Nat → Int
  states : Nat → σ
  episodes : List SingleAgentEpisode
  statesSlots : List (Option σ)
  doneAcc : List SingleAgentEpisode
  nextId : Nat
  nextInst : Nat
  log : List REvent

/-- Lines 286-353: the body of the per-slot `for env_index in range(...)`
loop of `_sample_timesteps`, for one slot `i`.

On termination/truncation the batched state row `i` is reset in place to
the initial-state template (lines 325-327).  The per-slot dict
`s_env_index` extracted at line 290 holds numpy views into those batched
rows (integer indexing of a `(N, ...)`-shaped state array yields a view),
so the stored `self._states[env_index]` written at line 342 reflects that
reset as well; the embedding makes this aliasing explicit. -/
def processSlot {σ : Type} (initOpt : Option σ) (acts logp : Nat → Int)
    (entries : List (String × (Nat → Int))) (out : EnvStepOut)
    (l : TLoop σ) (i : Nat) : TLoop σ :=
  let sEnv := l.states i
  let extra := extraModelOutputT entries logp i
  if out.terminateds i || out.truncateds i then
    let ep := (l.episodes.getD i default).addEnvStep (out.finalObs i) (acts i)
      (out.rewards i) (out.finalInfos i) extra (out.terminateds i) (out.truncateds i)
    let episodes := l.episodes.set i ep
    let statesSlots := l.statesSlots.set i (some sEnv)
    let log := l.log ++ [REvent.cb "on_episode_step" ep.id_ ep.inst]
    let stReset := match initOpt with
      | some init => (updFn l.states i init, init)
      | none => (l.states, sEnv)
    let episodes := episodes.set i ep.finalize
    let doneAcc := l.doneAcc ++ [ep.finalize]
    let log := log ++ [REvent.cb "on_episode_end" ep.id_ ep.inst]
    let newEp := SingleAgentEpisode.newWithReset l.nextId l.nextInst (out.obs i) (out.infos i)
    let episodes := episodes.set i newEp
    let log := log ++ [REvent.cb "on_episode_start" newEp.id_ newEp.inst]
    let statesSlots := statesSlots.set i (some stReset.2)
    { l with
      states := stReset.1, episodes := episodes, statesSlots := statesSlots,
      doneAcc := doneAcc, log := log,
      nextId := l.nextId + 1, nextInst := l.nextInst + 1 }
  else
    let ep := (l.episodes.getD i default).addEnvStep (out.obs i) (acts i)
      (out.rewards i) (out.infos i) extra false false
    { l with
      episodes := l.episodes.set i ep,
      log := l.log ++ [REvent.cb "on_episode_step" ep.id_ ep.inst],
      statesSlots := l.statesSlots.set i (some sEnv) }

/-- Result of the action-selection phase (lines 246-280): actions and
log-probabilities for all slots, the `fwd_out` entries for the
extra-model-output construction, the batched recurrent state after an
optional `STATE_OUT` update, and the threaded env state. -/
structure ActPhase (σ : Type) where
  acts : Nat → Int
  logp : Nat → Int
  entries : List (String × (Nat → Int))
  states : Nat → σ
  envState : Nat

/-- Lines 246-280: choose actions randomly from the action space, or via
the module's forward pass.  Calling the forward path without a module is
the source's `AttributeError` on `None`. -/
def actPhase {σ : Type} (env : VecEnv) (module : Option (RLModule σ))
    (explore randomActions : Bool) (envState : Nat) (states : Nat → σ)
    (obs : Nat → Int) : Except String (ActPhase σ) :=
  if randomActions then
    let s := env.actionSample envState
    .ok ⟨s.1, fun _ => 0, [], states, s.2⟩
  else
    match module with
    | none => .error "AttributeError: NoneType has no forward method"
    | some m =>
      let fwd := if explore then m.forwardExploration states obs
                 else m.forwardInference states obs
      let al := sampleActionsIfNecessary m fwd explore
      .ok ⟨al.1, al.2, fwd.entries, fwd.stateOut.getD states, envState⟩

/-- One iteration of the `while` loop of `_sample_timesteps`
(lines 245-353 minus the `ts` increment): action phase, `env.step`, then
the per-slot dispatch over all `numEnvs` slots. -/
def stepOnce {σ : Type} (env : VecEnv) (module : Option (RLModule σ))
    (explore randomActions : Bool) (l : TLoop σ) : Except String (TLoop σ) :=
  match actPhase env module explore randomActions l.envState l.states l.obs with
  | .error e => .error e
  | .ok a =>
    let so := env.stepFn a.envState a.acts
    let l1 : TLoop σ :=
      { l with envState := so.2, obs := so.1.obs, states := a.states,
               log := l.log ++ [REvent.envStep] }
    .ok ((List.range env.numEnvs).foldl
      (fun acc i => processSlot (initialStatesOf module) a.acts a.logp a.entries so.1 acc i)
      l1)

/-- Lines 243-245, 284: `ts = 0; while ts < num_timesteps: ...; ts += N`.
Structural fuel models the unbounded loop; `.ok none` means the fuel ran
out (for `numEnvs = 0` the source would loop forever). -/
def tsLoop {σ : Type} (env : VecEnv) (module : Option (RLModule σ))
    (explore randomActions : Bool) (numTimesteps : Nat) :
    Nat → TLoop σ → Nat → Except String (Option (TLoop σ × Nat))
  | 0, l, ts => if ts < numTimesteps then .ok none else .ok (some (l, ts))
  | fuel + 1, l, ts =>
    if ts < numTimesteps then
      match stepOnce env module explore randomActions l with
      | .error e => .error e
      | .ok l1 => tsLoop env module explore randomActions numTimesteps fuel l1
          (ts + env.numEnvs)
    else .ok (some (l, ts))

/-- Lines 232-240: resuming mid-episode, rebuild the batched recurrent
state from each slot's stored state, falling back to the initial-state
template for a slot whose stored state is still `None`.  With no
(stateful) module the comprehension ranges over no keys and yields the
empty dict. -/
def resumeStates {σ : Type} [Inhabited σ] (initOpt : Option σ)
    (slots : List (Option σ)) : Nat → σ :=
  match initOpt with
  | some init => fun i =>
      match slots.getD i none with
      | none => init
      | some s => s
  | none => fun _ => default

/-- Lines 175-378, `_sample_timesteps`: reset all slots (or resume the
stored episodes), run the timestep loop, then return the episodes that
terminated during the call followed by the cut chunks of the ongoing
episodes, registering every non-empty chunk in the ongoing-episodes
metrics ledger.  `.ok none` = the loop would not terminate (fuel
`numTimesteps` is enough whenever `numEnvs ≥ 1`). -/
def ledgerAppend (led : List (Nat × List SingleAgentEpisode)) (id : Nat)
    (e : SingleAgentEpisode) : List (Nat × List SingleAgentEpisode) :=
  if (led.find? (fun kv => kv.1 == id)).isSome then
    led.map (fun kv => if kv.1 == id then (kv.1, kv.2 ++ [e]) else kv)
  else led ++ [(id, [e])]

/-- `defaultdict` read: the fragments recorded for an episode id, if any. -/
def ledgerLookup (led : List (Nat × List SingleAgentEpisode)) (id : Nat) :
    Option (List SingleAgentEpisode) :=
  (led.find? (fun kv => kv.1 == id)).map (·.2)

/-- `del self._ongoing_episodes_for_metrics[id]`. -/
def ledgerRemove (led : List (Nat × List SingleAgentEpisode)) (id : Nat) :
    List (Nat × List SingleAgentEpisode) :=
  led.filter (fun kv => kv.1 != id)

/-- Lines 197-224: the reset branch of `_sample_timesteps` — create `N`
fresh episodes with `on_episode_created` callbacks, reset the env, fire
`on_episode_start`, seed each episode with its reset observation/info,
replicate the initial state and store the per-slot state dicts. -/
def tsResetEntry {σ : Type} [Inhabited σ] (env : VecEnv) (st : RunnerState σ) :
    TLoop σ :=
  let initOpt := initialStatesOf st.module
  let n := env.numEnvs
  let r := env.resetFn st.envState
  { envState := r.2.2
    obs := r.1
    states := fun _ => initOpt.getD default
    episodes := (List.range n).map (fun i =>
      (SingleAgentEpisode.new (st.nextId + i) (st.nextInst + i)).addEnvReset
        (r.1 i) (r.2.1 i))
    -- Line 224: `self._states[i] = {k: s[i] ...}` — always a dict, never
    -- Python `None` (the empty dict of a stateless module is modelled as
    -- `some default`).
    statesSlots := (List.range n).map (fun _ => some (initOpt.getD default))
    doneAcc := []
    nextId := st.nextId + n
    nextInst := st.nextInst + n
    log := st.log
      ++ (List.range n).map (fun i =>
          REvent.cb "on_episode_created" (st.nextId + i) (st.nextInst + i))
      ++ [REvent.envReset]
      ++ (List.range n).map (fun i =>
          REvent.cb "on_episode_start" (st.nextId + i) (st.nextInst + i)) }

/-- Lines 226-240: the resume branch of `_sample_timesteps` — pick up the
stored episodes' last observations and rebuild the batched recurrent
state from the stored per-slot states. -/
def tsResumeEntry {σ : Type} [Inhabited σ] (st : RunnerState σ) : TLoop σ :=
  { envState := st.envState
    obs := fun i => (st.episodes.getD i default).observations.getLastD 0
    states := resumeStates (initialStatesOf st.module) st.statesSlots
    episodes := st.episodes
    statesSlots := st.statesSlots
    doneAcc := []
    nextId := st.nextId
    nextInst := st.nextInst
    log := st.log }

/-- Lines 355-378: after the timestep loop — extend the completed-episodes
metrics list, cut every slot's episode into a fresh continuation, return
the finalized non-empty ongoing chunks after registering them in the
ongoing-episodes ledger, and account the collected timesteps. -/
def tsExit {σ : Type} [Inhabited σ] (st : RunnerState σ) (lf : TLoop σ) (ts : Nat) :
    List SingleAgentEpisode × RunnerState σ :=
  let preCut := lf.episodes
  let ongoing := (preCut.filter (fun e => 0 < e.t)).map SingleAgentEpisode.finalize
  (lf.doneAcc ++ ongoing,
    { envState := lf.envState
      module := st.module
      needsInitialReset := false
      episodes := (List.range preCut.length).map (fun i =>
        (preCut.getD i default).cut (lf.nextInst + i))
      statesSlots := lf.statesSlots
      doneEpisodesForMetrics := st.doneEpisodesForMetrics ++ lf.doneAcc
      ongoingEpisodesForMetrics :=
        ongoing.foldl (fun led e => ledgerAppend led e.id_ e)
          st.ongoingEpisodesForMetrics
      tsSinceLastMetrics := st.tsSinceLastMetrics + ts
      nextId := lf.nextId
      nextInst := lf.nextInst + preCut.length
      log := lf.log })

def sampleTimesteps {σ : Type} [Inhabited σ] (env : VecEnv) (numTimesteps : Nat)
    (explore randomActions forceReset : Bool) (st : RunnerState σ) :
    Except String (Option (List SingleAgentEpisode × RunnerState σ)) :=
  -- Lines 196-240: reset all sub-envs, or resume the stored episodes.
  let l0 : TLoop σ :=
    if forceReset || st.needsInitialReset then tsResetEntry env st
    else tsResumeEntry st
  match tsLoop env st.module explore randomActions numTimesteps numTimesteps l0 0 with
  | .error e => .error e
  | .ok none => .ok none
  | .ok (some (lf, ts)) => .ok (some (tsExit st lf ts))

/-- Loop-carried state of the `while eps < num_episodes` loop of
`_sample_episodes` (lines 425-535).  Unlike `_sample_timesteps`, the
episode list and recurrent states are locals here: the source never writes
them back to `self`. -/
structure ELoop (σ : Type) where
  envState : Nat
  obs : Nat → Int
  states : Nat → σ
  episodes : List SingleAgentEpisode
  doneAcc : List SingleAgentEpisode
  epsCount : Nat
  nextId : Nat
  nextInst : Nat
  log : List REvent

/-- Lines 464-535: the per-slot `for env_index in range(...)` dispatch of
`_sample_episodes`, with the early `break` (lines 502-503) once the
episode target is reached: the remaining slots of that environment step
are not processed at all, and the finishing slot gets neither a
replacement episode nor a recurrent-state reset. -/
def eSlotOne {σ : Type} [Inhabited σ] (initOpt : Option σ) (M : Nat)
    (acts logp : Nat → Int) (entries : List (String × (Nat → Int)))
    (out : EnvStepOut) (l : ELoop σ) (i : Nat) : ELoop σ × Bool :=
  let extra := extraModelOutputE entries logp i
  if out.terminateds i || out.truncateds i then
    let count := l.epsCount + 1
    let ep := (l.episodes.getD i default).addEnvStep (out.finalObs i) (acts i)
      (out.rewards i) (out.finalInfos i) extra (out.terminateds i) (out.truncateds i)
    let episodes := l.episodes.set i ep
    let log := l.log ++ [REvent.cb "on_episode_step" ep.id_ ep.inst]
    let episodes := episodes.set i ep.finalize
    let doneAcc := l.doneAcc ++ [ep.finalize]
    let log := log ++ [REvent.cb "on_episode_end" ep.id_ ep.inst]
    if count = M then
      ({ l with episodes := episodes, doneAcc := doneAcc, log := log,
                epsCount := count }, true)
    else
      -- Lines 507-509: reset the batched state row to the initial
      -- template (the tuple wrapping of the source broadcasts away).
      let states := match initOpt with
        | some init => updFn l.states i init
        | none => l.states
      let newEp := SingleAgentEpisode.newWithReset l.nextId l.nextInst
        (out.obs i) (out.infos i)
      let episodes := episodes.set i newEp
      let log := log ++ [REvent.cb "on_episode_start" newEp.id_ newEp.inst]
      ({ l with states := states, episodes := episodes, doneAcc := doneAcc,
                log := log, epsCount := count,
                nextId := l.nextId + 1, nextInst := l.nextInst + 1 }, false)
  else
    let ep := (l.episodes.getD i default).addEnvStep (out.obs i) (acts i)
      (out.rewards i) (out.infos i) extra false false
    ({ l with episodes := l.episodes.set i ep,
              log := l.log ++ [REvent.cb "on_episode_step" ep.id_ ep.inst] }, false)

def eProcessSlots {σ : Type} [Inhabited σ] (initOpt : Option σ) (M : Nat)
    (acts logp : Nat → Int) (entries : List (String × (Nat → Int)))
    (out : EnvStepOut) (l : ELoop σ) : List Nat → ELoop σ
  | [] => l
  | i :: rest =>
    let r := eSlotOne initOpt M acts logp entries out l i
    if r.2 then r.1
    else eProcessSlots initOpt M acts logp entries out r.1 rest

/-- One iteration of the `while` loop of `_sample_episodes`
(lines 427-535): action phase, `env.step`, then the per-slot dispatch.
Render capture (lines 413-415, 461-462) is not modelled; no claim
concerns it. -/
def eStepOnce {σ : Type} [Inhabited σ] (env : VecEnv) (module : Option (RLModule σ))
    (explore randomActions : Bool) (M : Nat) (l : ELoop σ) :
    Except String (ELoop σ) :=
  match actPhase env module explore randomActions l.envState l.states l.obs with
  | .error e => .error e
  | .ok a =>
    let so := env.stepFn a.envState a.acts
    let l1 : ELoop σ :=
      { l with envState := so.2, obs := so.1.obs, states := a.states,
               log := l.log ++ [REvent.envStep] }
    .ok (eProcessSlots (initialStatesOf module) M a.acts a.logp a.entries so.1 l1
      (List.range env.numEnvs))

/-- Lines 425-426: `eps = 0; while eps < num_episodes: ...` with explicit
fuel (`.ok none` = the env never finished enough episodes within fuel). -/
def eLoop {σ : Type} [Inhabited σ] (env : VecEnv) (module : Option (RLModule σ))
    (explore randomActions : Bool) (M : Nat) :
    Nat → ELoop σ → Except String (Option (ELoop σ))
  | 0, l => if l.epsCount < M then .ok none else .ok (some l)
  | fuel + 1, l =>
    if l.epsCount < M then
      match eStepOnce env module explore randomActions M l with
      | .error e => .error e
      | .ok l1 => eLoop env module explore randomActions M fuel l1
    else .ok (some l)

/-- Lines 380-543, `_sample_episodes`: force the next timestep-mode call
to reset (line 393), reset all slots, run the episode loop, and return
the completed episodes (dropping `t = 0` artifacts, of which there are
none among completed episodes).  Touches `self` only through the flag,
the env, the metrics fields and the counters — the per-slot episode list
is a local. -/
def sampleEpisodes {σ : Type} [Inhabited σ] (env : VecEnv) (fuel numEpisodes : Nat)
    (explore randomActions withRenderData : Bool) (st : RunnerState σ) :
    Except String (Option (List SingleAgentEpisode × RunnerState σ)) :=
  let initOpt := initialStatesOf st.module
  let n := env.numEnvs
  let r := env.resetFn st.envState
  let log := st.log ++ [REvent.envReset]
    ++ (List.range n).map (fun i =>
        REvent.cb "on_episode_created" (st.nextId + i) (st.nextInst + i))
    ++ (List.range n).map (fun i =>
        REvent.cb "on_episode_start" (st.nextId + i) (st.nextInst + i))
  let l0 : ELoop σ :=
    { envState := r.2.2
      obs := r.1
      states := fun _ => initOpt.getD default
      episodes := (List.range n).map (fun i =>
        (SingleAgentEpisode.new (st.nextId + i) (st.nextInst + i)).addEnvReset
          (r.1 i) (r.2.1 i))
      doneAcc := []
      epsCount := 0
      nextId := st.nextId + n
      nextInst := st.nextInst + n
      log := log }
  match eLoop env st.module explore randomActions numEpisodes fuel l0 with
  | .error e => .error e
  | .ok none => .ok none
  | .ok (some lf) =>
    let samples := lf.doneAcc.filter (fun e => 0 < e.t)
    .ok (some (samples,
      { st with
        envState := lf.envState
        needsInitialReset := true
        doneEpisodesForMetrics := st.doneEpisodesForMetrics ++ lf.doneAcc
        tsSinceLastMetrics :=
          st.tsSinceLastMetrics + (lf.doneAcc.map SingleAgentEpisode.epLen).sum
        nextId := lf.nextId
        nextInst := lf.nextInst
        log := lf.log }))

/-- The config fields `sample()` consults (lines 129-137, 157-168). -/
structure RunnerConfig where
  batchModeTruncateEpisodes : Bool
  rolloutFragmentLength : Nat
  trainBatchSize : Nat

/-- Lines 157-168: complete-episodes mode — repeatedly sample `numEnvs`
episodes until the cumulative step count reaches `train_batch_size`. -/
def completeEpisodesLoop {σ : Type} [Inhabited σ] (env : VecEnv) (cfg : RunnerConfig)
    (explore randomActions withRenderData : Bool) :
    Nat → Nat → List SingleAgentEpisode → RunnerState σ →
    Except String (Option (List SingleAgentEpisode × RunnerState σ))
  | 0, total, acc, st =>
    if total < cfg.trainBatchSize then .ok none else .ok (some (acc, st))
  | fuel + 1, total, acc, st =>
    if total < cfg.trainBatchSize then
      match sampleEpisodes env fuel env.numEnvs explore randomActions withRenderData st with
      | .error e => .error e
      | .ok none => .ok none
      | .ok (some (eps, st')) =>
        completeEpisodesLoop env cfg explore randomActions withRenderData fuel
          (total + (eps.map SingleAgentEpisode.epLen).sum) (acc ++ eps) st'
    else .ok (some (acc, st))

/-- Line 171: the `on_sample_end` callback fired on the samples before
`sample` returns. -/
def withSampleEnd {σ : Type}
    (r : Except String (Option (List SingleAgentEpisode × RunnerState σ))) :
    Except String (Option (List SingleAgentEpisode × RunnerState σ)) :=
  match r with
  | .ok (some (samples, st')) =>
    .ok (some (samples, { st' with log := st'.log ++ [REvent.onSampleEnd] }))
  | other => other

/-- Lines 114-173, `sample`: asserts that at most one of `num_timesteps` /
`num_episodes` is given (line 125) — the `.error` return models the
`AssertionError` raised before any environment or policy interaction, the
caller's runner state being left untouched — then dispatches to
timestep mode, episode mode, or the complete-episodes loop, firing
`on_sample_end` at the end. -/
def sampleFn {σ : Type} [Inhabited σ] (env : VecEnv) (cfg : RunnerConfig) (fuel : Nat)
    (numTimesteps numEpisodes : Option Nat)
    (explore randomActions withRenderData : Bool) (st : RunnerState σ) :
    Except String (Option (List SingleAgentEpisode × RunnerState σ)) :=
  if numTimesteps.isSome && numEpisodes.isSome then
    .error "AssertionError: not (num_timesteps is not None and num_episodes is not None)"
  else
    let numTimesteps :=
      if numTimesteps.isNone && numEpisodes.isNone && cfg.batchModeTruncateEpisodes then
        some (cfg.rolloutFragmentLength * env.numEnvs)
      else numTimesteps
    match numTimesteps, numEpisodes with
    | some t, _ =>
      withSampleEnd (sampleTimesteps env t explore randomActions false st)
    | none, some m =>
      withSampleEnd (sampleEpisodes env fuel m explore randomActions withRenderData st)
    | none, none =>
      withSampleEnd (completeEpisodesLoop env cfg explore randomActions withRenderData
        fuel 0 [] st)

/-- One metric record emitted by `get_metrics` (RolloutMetrics entries
`episode_length`, `episode_reward`). -/
structure RolloutMetrics where
  episodeLength : Nat
  episodeReward : Int
deriving DecidableEq

/-- Lines 560-577: iterate the completed episodes; the `assert eps.is_done`
(line 562) is modelled by returning `none`.  For each completed episode,
add the lengths/returns of the earlier fragments recorded in the
ongoing-episodes ledger under its id, and delete that ledger entry. -/
def metricsGo (ledger : List (Nat × List SingleAgentEpisode)) :
    List SingleAgentEpisode →
    Option (List RolloutMetrics × List (Nat × List SingleAgentEpisode))
  | [] => some ([], ledger)
  | e :: rest =>
    if e.isDone then
      let rec2 := match ledgerLookup ledger e.id_ with
        | some frags =>
          ((⟨e.epLen + (frags.map SingleAgentEpisode.epLen).sum,
             e.getReturn + (frags.map SingleAgentEpisode.getReturn).sum⟩ :
            RolloutMetrics),
           ledgerRemove ledger e.id_)
        | none => ((⟨e.epLen, e.getReturn⟩ : RolloutMetrics), ledger)
      match metricsGo rec2.2 rest with
      | some (ms, ledF) => some (rec2.1 :: ms, ledF)
      | none => none
    else none

/-- Lines 558-582, `get_metrics`: emit one record per completed episode,
drain the ledger entries of episodes that were cut before completing,
clear the completed list and zero the timesteps-since-last-metrics
counter. -/
def getMetrics {σ : Type} (st : RunnerState σ) :
    Option (List RolloutMetrics × RunnerState σ) :=
  match metricsGo st.ongoingEpisodesForMetrics st.doneEpisodesForMetrics with
  | none => none
  | some (ms, led) =>
    some (ms,
      { st with
        doneEpisodesForMetrics := []
        ongoingEpisodesForMetrics := led
        tsSinceLastMetrics := 0 })

/-- Lines 616-619, `assert_healthy`: `assert self.env and self.module`.
The env handle always holds a (truthy) wrapper object once construction
succeeded, so the assertion reduces to the module being present. -/
def assertHealthy {σ : Type} (st : RunnerState σ) : Bool :=
  st.module.isSome

/-- Outcome of the `try` block building the RLModule (lines 83-94):
either a module, a `NotImplementedError` (no default module for the
config), or any other exception. -/
inductive ModuleBuildResult (σ : Type) where
  | built (m : RLModule σ)
  | notImplemented
  | otherError (msg : String)

/-- Lines 98-112: the fields initialized by the constructor.  The source
fills the per-slot episode list with `None` placeholders that are
unreadable until the first reset (`_needs_initial_reset` starts `true`);
the embedding seeds inert empty episodes instead. -/
def mkInitialState {σ : Type} (env : VecEnv) (envState0 : Nat)
    (module : Option (RLModule σ)) : RunnerState σ :=
  { envState := envState0
    module := module
    needsInitialReset := true
    episodes := (List.range env.numEnvs).map (fun i => SingleAgentEpisode.new i i)
    statesSlots := List.replicate env.numEnvs none
    doneEpisodesForMetrics := []
    ongoingEpisodesForMetrics := []
    tsSinceLastMetrics := 0
    nextId := env.numEnvs
    nextInst := env.numEnvs
    log := [] }

/-- Lines 83-96 of `__init__`: `except NotImplementedError: self.module =
None` — exactly the no-default-module failure is swallowed, degrading the
runner to a policy-less mode; every other exception propagates out of the
constructor. -/
def initRunner {σ : Type} (env : VecEnv) (envState0 : Nat)
    (build : ModuleBuildResult σ) : Except String (RunnerState σ) :=
  match build with
  | .built m => .ok (mkInitialState env envState0 (some m))
  | .notImplemented => .ok (mkInitialState env envState0 none)
  | .otherError msg => .error msg

/-! ### Generic list helpers -/

theorem list_getD_set_self {α : Type} (l : List α) (i : Nat) (x : α) (d : α)
    (h : i < l.length) : (l.set i x).getD i d = x := by
  induction l generalizing i with
  | nil => simp at h
  | cons a as ih =>
    cases i with
    | zero => rfl
    | succ n =>
      simp only [List.set, List.getD_cons_succ]
      exact ih n (by simpa using h)

theorem list_getD_set_ne {α : Type} (l : List α) (i j : Nat) (x : α) (d : α)
    (h : i ≠ j) : (l.set i x).getD j d = l.getD j d := by
  induction l generalizing i j with
  | nil => rfl
  | cons a as ih =>
    cases i with
    | zero =>
      cases j with
      | zero => exact absurd rfl h
      | succ m => rfl
    | succ n =>
      cases j with
      | zero => rfl
      | succ m =>
        simp only [List.set, List.getD_cons_succ]
        exact ih n m (by omega)

theorem list_sum_map_set {α : Type} (f : α → Nat) (l : List α) (i : Nat) (x : α) (d : α)
    (h : i < l.length) :
    ((l.set i x).map f).sum + f (l.getD i d) = (l.map f).sum + f x := by
  induction l generalizing i with
  | nil => simp at h
  | cons a as ih =>
    cases i with
    | zero => simp [List.set]; omega
    | succ n =>
      simp only [List.set, List.map_cons, List.sum_cons, List.getD_cons_succ]
      have := ih n (by simpa using h)
      omega

/-! ### Claim C7 -/

/-- C7: a `sample` call in which both `num_timesteps` and `num_episodes`
are given fails fast with the assertion error of line 125 — for every
runner state and every flag combination, before any environment or policy
interaction (the caller's state is untouched, the error being raised
before any mutation). -/
theorem c7_sample_rejects_both_modes {σ : Type} [Inhabited σ] (env : VecEnv)
    (cfg : RunnerConfig) (fuel T M : Nat)
    (explore randomActions withRenderData : Bool) (st : RunnerState σ) :
    sampleFn env cfg fuel (some T) (some M) explore randomActions withRenderData st
      = .error
        "AssertionError: not (num_timesteps is not None and num_episodes is not None)" :=
  rfl

/-! ### Claim C8 -/

/-- C8: during construction, exactly the `NotImplementedError` from
building the RL-module spec is swallowed, leaving the runner in
policy-less mode (`module = None`); a successful build installs the
module, and every other exception propagates out of the constructor. -/
theorem c8_constructor_error_handling {σ : Type} (env : VecEnv) (envState0 : Nat) :
    (∀ m : RLModule σ, ∃ st, initRunner env envState0 (.built m) = .ok st ∧
      st.module = some m) ∧
    (∃ st, initRunner env envState0 (.notImplemented : ModuleBuildResult σ) = .ok st ∧
      st.module = none ∧ st.needsInitialReset = true) ∧
    (∀ msg, initRunner env envState0 (.otherError msg : ModuleBuildResult σ)
      = .error msg) :=
  ⟨fun m => ⟨mkInitialState env envState0 (some m), rfl, rfl⟩,
   ⟨mkInitialState env envState0 none, rfl, rfl, rfl⟩,
   fun _ => rfl⟩

/-! ### Claim C5 -/

/-- C5: in the per-slot dispatch of `_sample_timesteps`, whenever a slot
reports terminated or truncated, that slot's stored per-slot recurrent
state (and the batched state row) is reset to the policy's initial-state
template (lines 325-327 with the line-290 views, line 342); and on a
resume entry, `resumeStates` falls back to the initial-state template for
any slot whose stored state is still unset (line 235). -/
theorem c5_state_reset_and_resume_fallback {σ : Type} [Inhabited σ] (init : σ)
    (acts logp : Nat → Int) (entries : List (String × (Nat → Int)))
    (out : EnvStepOut) (l : TLoop σ) (i : Nat)
    (hdone : (out.terminateds i || out.truncateds i) = true)
    (hi : i < l.statesSlots.length) :
    ((processSlot (some init) acts logp entries out l i).statesSlots.getD i none
        = some init ∧
     (processSlot (some init) acts logp entries out l i).states i = init) ∧
    (∀ (slots : List (Option σ)) (j : Nat), slots.getD j none = none →
      resumeStates (some init) slots j = init) := by
  refine ⟨⟨?_, ?_⟩, ?_⟩
  · simp only [processSlot, hdone, if_true]
    have hlen : i < (l.statesSlots.set i (some (l.states i))).length := by
      simpa using hi
    exact list_getD_set_self _ i _ none hlen
  · simp [processSlot, hdone, updFn]
  · intro slots j hj
    simp only [resumeStates]
    rw [hj]

/-! ### Claim C9 -/

/-- Number of slots among `js` that report terminated or truncated in one
environment step. -/
def slotDoneCount (out : EnvStepOut) (js : List Nat) : Nat :=
  (js.filter (fun j => out.terminateds j || out.truncateds j)).length

theorem range_split_at (N i : Nat) (h : i < N) :
    ∃ ks, List.range N = List.range i ++ i :: ks := by
  obtain ⟨s, rfl⟩ : ∃ s, N = i + (s + 1) := ⟨N - i - 1, by omega⟩
  refine ⟨(List.range s).map (fun x => i + (x + 1)), ?_⟩
  rw [List.range_add]
  congr 1
  rw [List.range_succ_eq_map]
  simp [List.map_map, Function.comp]

theorem eProcessSlots_break_aux {σ : Type} [Inhabited σ] (initOpt : Option σ)
    (M : Nat) (acts logp : Nat → Int) (entries : List (String × (Nat → Int)))
    (out : EnvStepOut) (i : Nat)
    (hdone : (out.terminateds i || out.truncateds i) = true) :
    ∀ (js : List Nat) (l : ELoop σ) (ks : List Nat),
      (∀ j ∈ js, j < i) → i < l.episodes.length →
      l.epsCount + slotDoneCount out js + 1 = M →
      (eProcessSlots initOpt M acts logp entries out l (js ++ i :: ks)).epsCount = M ∧
      (eProcessSlots initOpt M acts logp entries out l (js ++ i :: ks)).episodes.length
        = l.episodes.length ∧
      (∀ j, i < j →
        (eProcessSlots initOpt M acts logp entries out l
          (js ++ i :: ks)).episodes.getD j default = l.episodes.getD j default) ∧
      (∀ j, i ≤ j →
        (eProcessSlots initOpt M acts logp entries out l (js ++ i :: ks)).states j
          = l.states j) ∧
      (eProcessSlots initOpt M acts logp entries out l
          (js ++ i :: ks)).episodes.getD i default
        = ((l.episodes.getD i default).addEnvStep (out.finalObs i) (acts i)
            (out.rewards i) (out.finalInfos i) (extraModelOutputE entries logp i)
            (out.terminateds i) (out.truncateds i)).finalize ∧
      (eProcessSlots initOpt M acts logp entries out l (js ++ i :: ks)).nextInst
        = l.nextInst + slotDoneCount out js := by
  intro js
  induction js with
  | nil =>
    intro l ks _ hi hM
    have hMc : l.epsCount + 1 = M := by
      simpa [slotDoneCount] using hM
    have hbr : (eSlotOne initOpt M acts logp entries out l i).2 = true := by
      simp [eSlotOne, hdone, hMc]
    rw [List.nil_append]
    simp only [eProcessSlots, hbr, if_true]
    refine ⟨?_, ?_, ?_, ?_, ?_, ?_⟩
    · simp [eSlotOne, hdone, hMc]
    · simp [eSlotOne, hdone, hMc]
    · intro j hj
      simp only [eSlotOne, hdone, if_true, hMc, if_pos rfl]
      rw [list_getD_set_ne _ _ _ _ _ (by omega), list_getD_set_ne _ _ _ _ _ (by omega)]
    · intro j _
      simp [eSlotOne, hdone, hMc]
    · simp only [eSlotOne, hdone, if_true, hMc, if_pos rfl]
      rw [list_getD_set_self _ i _ _ (by simpa using hi)]
    · simp [eSlotOne, hdone, hMc, slotDoneCount]
  | cons j js ih =>
    intro l ks hjs hi hM
    have hji : j < i := hjs j (List.mem_cons_self j js)
    simp only [List.cons_append, eProcessSlots]
    by_cases hdj : (out.terminateds j || out.truncateds j) = true
    · -- slot j also finishes, but the target is not yet reached
      have hcnt : slotDoneCount out (j :: js) = 1 + slotDoneCount out js := by
        simp only [slotDoneCount, List.filter_cons, hdj, if_true, List.length_cons]
        omega
      have hne : ¬ (l.epsCount + 1 = M) := by omega
      have hbr : (eSlotOne initOpt M acts logp entries out l j).2 = false := by
        simp [eSlotOne, hdj, hne]
      rw [hbr]
      simp only [Bool.false_eq_true, if_false, List.append_eq]
      have hlen1 : (eSlotOne initOpt M acts logp entries out l j).1.episodes.length
          = l.episodes.length := by
        simp [eSlotOne, hdj, hne]
      have hcount1 : (eSlotOne initOpt M acts logp entries out l j).1.epsCount
          = l.epsCount + 1 := by
        simp [eSlotOne, hdj, hne]
      have hgetne : ∀ j', j ≠ j' →
          (eSlotOne initOpt M acts logp entries out l j).1.episodes.getD j' default
            = l.episodes.getD j' default := by
        intro j' hj'
        simp only [eSlotOne, hdj, if_true, if_neg hne]
        rw [list_getD_set_ne _ _ _ _ _ hj', list_getD_set_ne _ _ _ _ _ hj',
          list_getD_set_ne _ _ _ _ _ hj']
      have hstates : ∀ j', j ≠ j' →
          (eSlotOne initOpt M acts logp entries out l j).1.states j' = l.states j' := by
        intro j' hj'
        simp only [eSlotOne, hdj, if_true, if_neg hne]
        cases initOpt with
        | none => rfl
        | some init =>
          simp only [updFn]
          rw [if_neg (by omega)]
      have hinst1 : (eSlotOne initOpt M acts logp entries out l j).1.nextInst
          = l.nextInst + 1 := by
        simp [eSlotOne, hdj, hne]
      obtain ⟨h1, h2, h3, h4, h5, h6⟩ :=
        ih (eSlotOne initOpt M acts logp entries out l j).1 ks
          (fun x hx => hjs x (List.mem_cons_of_mem j hx))
          (by rw [hlen1]; exact hi)
          (by rw [hcount1]; omega)
      refine ⟨h1, ?_, ?_, ?_, ?_, ?_⟩
      · rw [h2, hlen1]
      · intro j' hj'
        rw [h3 j' hj', hgetne j' (by omega)]
      · intro j' hj'
        rw [h4 j' hj', hstates j' (by omega)]
      · rw [h5, hgetne i (by omega)]
      · rw [h6, hinst1, hcnt]
        omega
    · -- slot j continues
      have hcnt : slotDoneCount out (j :: js) = slotDoneCount out js := by
        simp [slotDoneCount, List.filter_cons, hdj]
      have hbr : (eSlotOne initOpt M acts logp entries out l j).2 = false := by
        simp [eSlotOne, hdj]
      rw [hbr]
      simp only [Bool.false_eq_true, if_false, List.append_eq]
      have hlen1 : (eSlotOne initOpt M acts logp entries out l j).1.episodes.length
          = l.episodes.length := by
        simp [eSlotOne, hdj]
      have hcount1 : (eSlotOne initOpt M acts logp entries out l j).1.epsCount
          = l.epsCount := by
        simp [eSlotOne, hdj]
      have hgetne : ∀ j', j ≠ j' →
          (eSlotOne initOpt M acts logp entries out l j).1.episodes.getD j' default
            = l.episodes.getD j' default := by
        intro j' hj'
        simp only [eSlotOne, hdj, Bool.false_eq_true, if_false]
        rw [list_getD_set_ne _ _ _ _ _ hj']
      have hstates : (eSlotOne initOpt M acts logp entries out l j).1.states
          = l.states := by
        simp [eSlotOne, hdj]
      have hinst1 : (eSlotOne initOpt M acts logp entries out l j).1.nextInst
          = l.nextInst := by
        simp [eSlotOne, hdj]
      obtain ⟨h1, h2, h3, h4, h5, h6⟩ :=
        ih (eSlotOne initOpt M acts logp entries out l j).1 ks
          (fun x hx => hjs x (List.mem_cons_of_mem j hx))
          (by rw [hlen1]; exact hi)
          (by rw [hcount1]; omega)
      refine ⟨h1, ?_, ?_, ?_, ?_, ?_⟩
      · rw [h2, hlen1]
      · intro j' hj'
        rw [h3 j' hj', hgetne j' (by omega)]
      · intro j' hj'
        rw [h4 j' hj', hstates]
      · rw [h5, hgetne i (by omega)]
      · rw [h6, hinst1, hcnt]

/-- C9: in `_sample_episodes`, if the `M`-th episode completion occurs at
slot `i` while iterating the slots of one environment step, the loop
breaks immediately: slots `j > i` of that step get no transition appended
(and no state change), slot `i` keeps its finalized episode — no
replacement episode, no recurrent-state reset — the episode counter
equals `M`, and the outer `while` loop exits at once. -/
theorem c9_episode_target_breaks_slot_iteration {σ : Type} [Inhabited σ]
    (initOpt : Option σ) (M N : Nat) (acts logp : Nat → Int)
    (entries : List (String × (Nat → Int))) (out : EnvStepOut) (l : ELoop σ) (i : Nat)
    (hiN : i < N) (hlen : l.episodes.length = N)
    (hdone : (out.terminateds i || out.truncateds i) = true)
    (hM : l.epsCount + slotDoneCount out (List.range i) + 1 = M) :
    (eProcessSlots initOpt M acts logp entries out l (List.range N)).epsCount = M ∧
    (∀ j, i < j →
      (eProcessSlots initOpt M acts logp entries out l
        (List.range N)).episodes.getD j default = l.episodes.getD j default) ∧
    (∀ j, i ≤ j →
      (eProcessSlots initOpt M acts logp entries out l (List.range N)).states j
        = l.states j) ∧
    (eProcessSlots initOpt M acts logp entries out l
        (List.range N)).episodes.getD i default
      = ((l.episodes.getD i default).addEnvStep (out.finalObs i) (acts i)
          (out.rewards i) (out.finalInfos i) (extraModelOutputE entries logp i)
          (out.terminateds i) (out.truncateds i)).finalize ∧
    (eProcessSlots initOpt M acts logp entries out l (List.range N)).nextInst
      = l.nextInst + slotDoneCount out (List.range i) ∧
    (∀ (fuel : Nat) (env : VecEnv) (module : Option (RLModule σ))
        (explore randomActions : Bool),
      eLoop env module explore randomActions M fuel
        (eProcessSlots initOpt M acts logp entries out l (List.range N))
        = .ok (some (eProcessSlots initOpt M acts logp entries out l (List.range N)))) := by
  obtain ⟨ks, hsplit⟩ := range_split_at N i hiN
  rw [hsplit]
  obtain ⟨h1, _h2, h3, h4, h5, h6⟩ :=
    eProcessSlots_break_aux initOpt M acts logp entries out i hdone (List.range i) l ks
      (fun j hj => List.mem_range.mp hj) (by omega) hM
  refine ⟨h1, h3, h4, h5, h6, ?_⟩
  intro fuel env module explore randomActions
  have hnotlt : ¬ (eProcessSlots initOpt M acts logp entries out l
      (List.range i ++ i :: ks)).epsCount < M := by
    rw [h1]
    omega
  cases fuel with
  | zero => simp [eLoop, hnotlt]
  | succ fuel => simp [eLoop, hnotlt]

/-- A concrete one-environment-step outcome in which every slot reports
terminated (used to instantiate theorems on concrete inputs). -/
def demoAllDoneOut : EnvStepOut :=
  { obs := fun _ => 1, rewards := fun _ => 1, terminateds := fun _ => true,
    truncateds := fun _ => false, infos := fun _ => 0,
    finalObs := fun _ => 2, finalInfos := fun _ => 0 }

/-- A concrete two-slot `_sample_episodes` loop state. -/
def demoELoop : ELoop Int :=
  { envState := 0, obs := fun _ => 0, states := fun _ => 0,
    episodes := [SingleAgentEpisode.new 0 0, SingleAgentEpisode.new 1 1],
    doneAcc := [], epsCount := 0, nextId := 2, nextInst := 2, log := [] }

theorem c9_witness :
    (eProcessSlots (some (7 : Int)) 1 (fun _ => 0) (fun _ => 0) [] demoAllDoneOut
        demoELoop (List.range 2)).epsCount = 1 ∧
    (eProcessSlots (some (7 : Int)) 1 (fun _ => 0) (fun _ => 0) [] demoAllDoneOut
        demoELoop (List.range 2)).episodes.getD 1 default
      = demoELoop.episodes.getD 1 default := by
  have h := c9_episode_target_breaks_slot_iteration (some (7 : Int)) 1 2
    (fun _ => 0) (fun _ => 0) [] demoAllDoneOut demoELoop 0
    (by decide) rfl rfl rfl
  exact ⟨h.1, h.2.1 1 (by decide)⟩

/-- A concrete one-slot `_sample_timesteps` loop state. -/
def demoTLoop : TLoop Int :=
  { envState := 0, obs := fun _ => 0, states := fun _ => 3,
    episodes := [SingleAgentEpisode.new 0 0], statesSlots := [some 3],
    doneAcc := [], nextId := 1, nextInst := 1, log := [] }

theorem c5_witness :
    (processSlot (some (7 : Int)) (fun _ => 0) (fun _ => 0) [] demoAllDoneOut
        demoTLoop 0).statesSlots.getD 0 none = some 7 ∧
    (processSlot (some (7 : Int)) (fun _ => 0) (fun _ => 0) [] demoAllDoneOut
        demoTLoop 0).states 0 = 7 := by
  have h := c5_state_reset_and_resume_fallback (7 : Int) (fun _ => 0) (fun _ => 0) []
    demoAllDoneOut demoTLoop 0 rfl (by decide)
  exact ⟨h.1.1, h.1.2⟩

/-! ### Claim C2 -/

/-- Invariant of the `_sample_episodes` loop: the completed-episode list
tracks the counter, the counter never exceeds the target, and every
collected episode is done and non-empty. -/
def EpisodesInv {σ : Type} (M : Nat) (l : ELoop σ) : Prop :=
  l.doneAcc.length = l.epsCount ∧ l.epsCount ≤ M ∧
  ∀ e ∈ l.doneAcc, e.isDone = true ∧ 0 < e.t

theorem eProcessSlots_inv {σ : Type} [Inhabited σ] (initOpt : Option σ) (M : Nat)
    (acts logp : Nat → Int) (entries : List (String × (Nat → Int))) (out : EnvStepOut) :
    ∀ (slots : List Nat) (l : ELoop σ), l.epsCount < M → EpisodesInv M l →
      EpisodesInv M (eProcessSlots initOpt M acts logp entries out l slots) := by
  intro slots
  induction slots with
  | nil =>
    intro l _ hinv
    simpa [eProcessSlots] using hinv
  | cons i rest ih =>
    intro l hlt hinv
    obtain ⟨hl1, _hl2, hl3⟩ := hinv
    simp only [eProcessSlots]
    by_cases hd : (out.terminateds i || out.truncateds i) = true
    · have hmem : ∀ e ∈ l.doneAcc ++
          [((l.episodes.getD i default).addEnvStep (out.finalObs i) (acts i)
            (out.rewards i) (out.finalInfos i) (extraModelOutputE entries logp i)
            (out.terminateds i) (out.truncateds i)).finalize],
          e.isDone = true ∧ 0 < e.t := by
        intro e he
        rcases List.mem_append.mp he with h | h
        · exact hl3 e h
        · rcases List.mem_singleton.mp h with rfl
          refine ⟨?_, ?_⟩
          · simp [SingleAgentEpisode.isDone, SingleAgentEpisode.finalize,
              SingleAgentEpisode.addEnvStep, hd]
          · simp [SingleAgentEpisode.finalize, SingleAgentEpisode.addEnvStep]
      by_cases hMeq : l.epsCount + 1 = M
      · have hbr : (eSlotOne initOpt M acts logp entries out l i).2 = true := by
          simp [eSlotOne, hd, hMeq]
        rw [hbr]
        simp only [if_true]
        refine ⟨?_, ?_, ?_⟩
        · simp [eSlotOne, hd, hMeq]
          omega
        · simp [eSlotOne, hd, hMeq]
        · simp only [eSlotOne, hd, if_true, hMeq, if_pos rfl]
          exact hmem
      · have hbr : (eSlotOne initOpt M acts logp entries out l i).2 = false := by
          simp [eSlotOne, hd, hMeq]
        rw [hbr]
        simp only [Bool.false_eq_true, if_false]
        refine ih _ ?_ ⟨?_, ?_, ?_⟩
        · simp [eSlotOne, hd, hMeq]
          omega
        · simp [eSlotOne, hd, hMeq]
          omega
        · simp [eSlotOne, hd, hMeq]
          omega
        · simp only [eSlotOne, hd, if_true, if_neg hMeq]
          exact hmem
    · have hbr : (eSlotOne initOpt M acts logp entries out l i).2 = false := by
        simp [eSlotOne, hd]
      rw [hbr]
      simp only [Bool.false_eq_true, if_false]
      refine ih _ ?_ ⟨?_, ?_, ?_⟩
      · simp [eSlotOne, hd]
        omega
      · simp [eSlotOne, hd]
        omega
      · simp [eSlotOne, hd]
        omega
      · simp only [eSlotOne, hd, Bool.false_eq_true, if_false]
        exact hl3

theorem eStepOnce_inv {σ : Type} [Inhabited σ] (env : VecEnv)
    (module : Option (RLModule σ)) (explore randomActions : Bool) (M : Nat)
    (l l' : ELoop σ) (hres : eStepOnce env module explore randomActions M l = .ok l')
    (hlt : l.epsCount < M) (hinv : EpisodesInv M l) : EpisodesInv M l' := by
  unfold eStepOnce at hres
  cases hact : actPhase env module explore randomActions l.envState l.states l.obs with
  | error e => rw [hact] at hres; exact absurd hres (by simp)
  | ok a =>
    rw [hact] at hres
    simp only [Except.ok.injEq] at hres
    subst hres
    exact eProcessSlots_inv _ M _ _ _ _ _ _ hlt hinv

theorem eLoop_inv_exit {σ : Type} [Inhabited σ] (env : VecEnv)
    (module : Option (RLModule σ)) (explore randomActions : Bool) (M : Nat) :
    ∀ (fuel : Nat) (l lf : ELoop σ), EpisodesInv M l →
      eLoop env module explore randomActions M fuel l = .ok (some lf) →
      EpisodesInv M lf ∧ lf.epsCount = M := by
  intro fuel
  induction fuel with
  | zero =>
    intro l lf hinv hres
    simp only [eLoop] at hres
    by_cases hlt : l.epsCount < M
    · rw [if_pos hlt] at hres
      exact absurd hres (by simp)
    · rw [if_neg hlt] at hres
      simp only [Except.ok.injEq, Option.some.injEq] at hres
      subst hres
      exact ⟨hinv, by have := hinv.2.1; omega⟩
  | succ fuel ih =>
    intro l lf hinv hres
    simp only [eLoop] at hres
    by_cases hlt : l.epsCount < M
    · rw [if_pos hlt] at hres
      cases hstep : eStepOnce env module explore randomActions M l with
      | error e => rw [hstep] at hres; exact absurd hres (by simp)
      | ok l1 =>
        rw [hstep] at hres
        exact ih l1 lf (eStepOnce_inv env module explore randomActions M l l1 hstep hlt hinv) hres
    · rw [if_neg hlt] at hres
      simp only [Except.ok.injEq, Option.some.injEq] at hres
      subst hres
      exact ⟨hinv, by have := hinv.2.1; omega⟩

theorem exists_append_of_append {α : Type} {x y : List α} (h : ∃ δ, y = x ++ δ)
    (w : List α) : ∃ δ, y ++ w = x ++ δ := by
  obtain ⟨δ, rfl⟩ := h
  exact ⟨δ ++ w, by simp⟩

theorem eSlotOne_log {σ : Type} [Inhabited σ] (initOpt : Option σ) (M : Nat)
    (acts logp : Nat → Int) (entries : List (String × (Nat → Int)))
    (out : EnvStepOut) (l : ELoop σ) (i : Nat) :
    ∃ δ, (eSlotOne initOpt M acts logp entries out l i).1.log = l.log ++ δ := by
  have base : ∃ δ, l.log = l.log ++ δ := ⟨[], by simp⟩
  by_cases hd : (out.terminateds i || out.truncateds i) = true
  · by_cases hMeq : l.epsCount + 1 = M
    · simp only [eSlotOne, hd, if_true, if_pos hMeq]
      exact exists_append_of_append (exists_append_of_append base _) _
    · simp only [eSlotOne, hd, if_true, if_neg hMeq]
      exact exists_append_of_append
        (exists_append_of_append (exists_append_of_append base _) _) _
  · simp only [eSlotOne, hd, Bool.false_eq_true, if_false]
    exact exists_append_of_append base _

theorem eProcessSlots_log {σ : Type} [Inhabited σ] (initOpt : Option σ) (M : Nat)
    (acts logp : Nat → Int) (entries : List (String × (Nat → Int))) (out : EnvStepOut) :
    ∀ (slots : List Nat) (l : ELoop σ),
      ∃ δ, (eProcessSlots initOpt M acts logp entries out l slots).log = l.log ++ δ := by
  intro slots
  induction slots with
  | nil =>
    intro l
    exact ⟨[], by simp [eProcessSlots]⟩
  | cons i rest ih =>
    intro l
    obtain ⟨δ1, h1⟩ := eSlotOne_log initOpt M acts logp entries out l i
    simp only [eProcessSlots]
    by_cases hbr : (eSlotOne initOpt M acts logp entries out l i).2 = true
    · rw [hbr]
      exact ⟨δ1, by simpa using h1⟩
    · rw [Bool.not_eq_true] at hbr
      rw [hbr]
      simp only [Bool.false_eq_true, if_false]
      obtain ⟨δ2, h2⟩ := ih (eSlotOne initOpt M acts logp entries out l i).1
      exact ⟨δ1 ++ δ2, by rw [h2, h1, List.append_assoc]⟩

theorem eStepOnce_log {σ : Type} [Inhabited σ] (env : VecEnv)
    (module : Option (RLModule σ)) (explore randomActions : Bool) (M : Nat)
    (l l' : ELoop σ) (hres : eStepOnce env module explore randomActions M l = .ok l') :
    ∃ δ, l'.log = l.log ++ δ := by
  unfold eStepOnce at hres
  cases hact : actPhase env module explore randomActions l.envState l.states l.obs with
  | error e => rw [hact] at hres; exact absurd hres (by simp)
  | ok a =>
    rw [hact] at hres
    simp only [Except.ok.injEq] at hres
    subst hres
    obtain ⟨δ, h⟩ := eProcessSlots_log (initialStatesOf module) M a.acts a.logp a.entries
      ((env.stepFn a.envState a.acts).1)
      (List.range env.numEnvs)
      { l with envState := (env.stepFn a.envState a.acts).2,
               obs := (env.stepFn a.envState a.acts).1.obs, states := a.states,
               log := l.log ++ [REvent.envStep] }
    exact ⟨REvent.envStep :: δ, by rw [h]; simp⟩

theorem eLoop_log {σ : Type} [Inhabited σ] (env : VecEnv)
    (module : Option (RLModule σ)) (explore randomActions : Bool) (M : Nat) :
    ∀ (fuel : Nat) (l lf : ELoop σ),
      eLoop env module explore randomActions M fuel l = .ok (some lf) →
      ∃ δ, lf.log = l.log ++ δ := by
  intro fuel
  induction fuel with
  | zero =>
    intro l lf hres
    simp only [eLoop] at hres
    by_cases hlt : l.epsCount < M
    · rw [if_pos hlt] at hres
      exact absurd hres (by simp)
    · rw [if_neg hlt] at hres
      simp only [Except.ok.injEq, Option.some.injEq] at hres
      subst hres
      exact ⟨[], by simp⟩
  | succ fuel ih =>
    intro l lf hres
    simp only [eLoop] at hres
    by_cases hlt : l.epsCount < M
    · rw [if_pos hlt] at hres
      cases hstep : eStepOnce env module explore randomActions M l with
      | error e => rw [hstep] at hres; exact absurd hres (by simp)
      | ok l1 =>
        rw [hstep] at hres
        obtain ⟨δ1, h1⟩ := eStepOnce_log env module explore randomActions M l l1 hstep
        obtain ⟨δ2, h2⟩ := ih l1 lf hres
        exact ⟨δ1 ++ δ2, by rw [h2, h1, List.append_assoc]⟩
    · rw [if_neg hlt] at hres
      simp only [Except.ok.injEq, Option.some.injEq] at hres
      subst hres
      exact ⟨[], by simp⟩

/-- C2: a `_sample_episodes(num_episodes=M)` call that returns (for any
target `M ≥ 1`) resets all slots first — the events it appends begin with
the environment reset — sets the needs-initial-reset flag so that a
subsequent timestep-mode call resets as well, and returns exactly `M`
episodes, each of them terminated or truncated. -/
theorem c2_sample_episodes_returns_M_done_episodes {σ : Type} [Inhabited σ]
    (env : VecEnv) (fuel M : Nat) (explore randomActions withRenderData : Bool)
    (st : RunnerState σ) (samples : List SingleAgentEpisode) (st' : RunnerState σ)
    (hM : 1 ≤ M)
    (hres : sampleEpisodes env fuel M explore randomActions withRenderData st
      = .ok (some (samples, st'))) :
    st'.needsInitialReset = true ∧
    (∃ rest, st'.log = st.log ++ REvent.envReset :: rest) ∧
    samples.length = M ∧
    (∀ e ∈ samples, e.isDone = true) := by
  unfold sampleEpisodes at hres
  simp only [] at hres
  set l0 : ELoop σ :=
    { envState := (env.resetFn st.envState).2.2
      obs := (env.resetFn st.envState).1
      states := fun _ => (initialStatesOf st.module).getD default
      episodes := (List.range env.numEnvs).map (fun i =>
        (SingleAgentEpisode.new (st.nextId + i) (st.nextInst + i)).addEnvReset
          ((env.resetFn st.envState).1 i) ((env.resetFn st.envState).2.1 i))
      doneAcc := []
      epsCount := 0
      nextId := st.nextId + env.numEnvs
      nextInst := st.nextInst + env.numEnvs
      log := st.log ++ [REvent.envReset]
        ++ (List.range env.numEnvs).map (fun i =>
            REvent.cb "on_episode_created" (st.nextId + i) (st.nextInst + i))
        ++ (List.range env.numEnvs).map (fun i =>
            REvent.cb "on_episode_start" (st.nextId + i) (st.nextInst + i)) }
    with hl0
  cases hloop : eLoop env st.module explore randomActions M fuel l0 with
  | error e =>
    rw [hloop] at hres
    exact absurd hres (by simp)
  | ok o =>
    cases o with
    | none =>
      rw [hloop] at hres
      exact absurd hres (by simp)
    | some lf =>
      rw [hloop] at hres
      simp only [Except.ok.injEq, Option.some.injEq, Prod.mk.injEq] at hres
      obtain ⟨hsamples, hst'⟩ := hres
      have hinv0 : EpisodesInv M l0 := ⟨rfl, Nat.zero_le M, by simp [hl0]⟩
      obtain ⟨hinvf, hcount⟩ :=
        eLoop_inv_exit env st.module explore randomActions M fuel l0 lf hinv0 hloop
      have hfilter : lf.doneAcc.filter (fun e => 0 < e.t) = lf.doneAcc := by
        apply List.filter_eq_self.mpr
        intro e he
        simpa using (hinvf.2.2 e he).2
      refine ⟨?_, ?_, ?_, ?_⟩
      · rw [← hst']
      · obtain ⟨δ, hδ⟩ := eLoop_log env st.module explore randomActions M fuel l0 lf hloop
        refine ⟨(List.range env.numEnvs).map (fun i =>
            REvent.cb "on_episode_created" (st.nextId + i) (st.nextInst + i))
          ++ (List.range env.numEnvs).map (fun i =>
            REvent.cb "on_episode_start" (st.nextId + i) (st.nextInst + i)) ++ δ, ?_⟩
        rw [← hst']
        simp only [hδ, hl0]
        simp [List.append_assoc]
      · rw [← hsamples, hfilter, hinvf.1, hcount]
      · intro e he
        rw [← hsamples, hfilter] at he
        exact (hinvf.2.2 e he).1

/-- Samples component of a successful sampling result (for instantiating
theorems on concrete runs). -/
def okSamples {σ : Type}
    (r : Except String (Option (List SingleAgentEpisode × RunnerState σ))) :
    List SingleAgentEpisode :=
  match r with
  | .ok (some (s, _)) => s
  | _ => []

/-- Runner-state component of a successful sampling result. -/
def okState {σ : Type} (d : RunnerState σ)
    (r : Except String (Option (List SingleAgentEpisode × RunnerState σ))) :
    RunnerState σ :=
  match r with
  | .ok (some (_, st)) => st
  | _ => d

/-- A concrete two-slot environment whose episodes all terminate at every
step. -/
def demoEnvDone : VecEnv :=
  { numEnvs := 2
    resetFn := fun s => (fun _ => 0, fun _ => 0, s + 1)
    stepFn := fun s _ => (demoAllDoneOut, s + 1)
    actionSample := fun s => (fun _ => 0, s) }

def demoRunner : RunnerState Int := mkInitialState demoEnvDone 0 none

def c2Run : Except String (Option (List SingleAgentEpisode × RunnerState Int)) :=
  sampleEpisodes demoEnvDone 4 3 true true false demoRunner

theorem c2_witness :
    (okState demoRunner c2Run).needsInitialReset = true ∧
    (okSamples c2Run).length = 3 ∧
    (∀ e ∈ okSamples c2Run, e.isDone = true) := by
  have h := c2_sample_episodes_returns_M_done_episodes demoEnvDone 4 3 true true false
    demoRunner (okSamples c2Run) (okState demoRunner c2Run) (by decide) (by rfl)
  exact ⟨h.1, h.2.2.1, h.2.2.2⟩

/-! ### Claim C4 -/

theorem list_getD_mem {α : Type} (l : List α) (n : Nat) (d : α) (h : n < l.length) :
    l.getD n d ∈ l := by
  induction l generalizing n with
  | nil => simp at h
  | cons a as ih =>
    cases n with
    | zero => exact List.mem_cons_self a as
    | succ m =>
      simp only [List.getD_cons_succ]
      exact List.mem_cons_of_mem a (ih m (by simpa using h))

theorem ledgerLookup_remove_self (led : List (Nat × List SingleAgentEpisode)) (id : Nat) :
    ledgerLookup (ledgerRemove led id) id = none := by
  induction led with
  | nil => rfl
  | cons kv rest ih =>
    by_cases h : kv.1 = id
    · simpa [ledgerRemove, List.filter_cons, h] using ih
    · simp only [ledgerRemove, List.filter_cons] at ih ⊢
      rw [if_pos (by simpa using h)]
      simpa [ledgerLookup, List.find?_cons, h] using ih

theorem ledgerLookup_remove_ne (led : List (Nat × List SingleAgentEpisode))
    (id id2 : Nat) (h : id ≠ id2) :
    ledgerLookup (ledgerRemove led id2) id = ledgerLookup led id := by
  induction led with
  | nil => rfl
  | cons kv rest ih =>
    by_cases hk : kv.1 = id2
    · rw [show ledgerRemove (kv :: rest) id2 = ledgerRemove rest id2 by
        simp [ledgerRemove, List.filter_cons, hk]]
      rw [ih]
      simp [ledgerLookup, List.find?_cons, show (kv.1 == id) = false by
        simp [hk]; omega]
    · rw [show ledgerRemove (kv :: rest) id2 = kv :: ledgerRemove rest id2 by
        simp [ledgerRemove, List.filter_cons, hk]]
      by_cases hki : kv.1 = id
      · simp [ledgerLookup, List.find?_cons, hki]
      · simp only [ledgerLookup, List.find?_cons] at ih ⊢
        rw [show (kv.1 == id) = false by simp [hki]]
        exact ih

theorem metricsGo_none_preserved (id : Nat) :
    ∀ (l : List SingleAgentEpisode) (led : List (Nat × List SingleAgentEpisode))
      (ms : List RolloutMetrics) (ledF : List (Nat × List SingleAgentEpisode)),
      ledgerLookup led id = none → metricsGo led l = some (ms, ledF) →
      ledgerLookup ledF id = none := by
  intro l
  induction l with
  | nil =>
    intro led ms ledF hnone hres
    simp only [metricsGo, Option.some.injEq, Prod.mk.injEq] at hres
    rw [← hres.2]
    exact hnone
  | cons e rest ih =>
    intro led ms ledF hnone hres
    simp only [metricsGo] at hres
    by_cases hd : e.isDone = true
    · rw [if_pos hd] at hres
      cases hlk : ledgerLookup led e.id_ with
      | none =>
        rw [hlk] at hres
        cases hrec : metricsGo led rest with
        | none => rw [hrec] at hres; exact absurd hres (by simp)
        | some p =>
          rw [hrec] at hres
          simp only [Option.some.injEq, Prod.mk.injEq] at hres
          rw [← hres.2]
          exact ih led p.1 p.2 hnone (by rw [hrec])
      | some frags =>
        rw [hlk] at hres
        cases hrec : metricsGo (ledgerRemove led e.id_) rest with
        | none => rw [hrec] at hres; exact absurd hres (by simp)
        | some p =>
          rw [hrec] at hres
          simp only [Option.some.injEq, Prod.mk.injEq] at hres
          rw [← hres.2]
          refine ih (ledgerRemove led e.id_) p.1 p.2 ?_ (by rw [hrec])
          by_cases hide : id = e.id_
          · subst hide
            exact ledgerLookup_remove_self led e.id_
          · rw [ledgerLookup_remove_ne led id e.id_ hide]
            exact hnone
    · rw [if_neg hd] at hres
      exact absurd hres (by simp)

theorem metricsGo_length :
    ∀ (l : List SingleAgentEpisode) (led : List (Nat × List SingleAgentEpisode))
      (ms : List RolloutMetrics) (ledF : List (Nat × List SingleAgentEpisode)),
      metricsGo led l = some (ms, ledF) → ms.length = l.length := by
  intro l
  induction l with
  | nil =>
    intro led ms ledF hres
    simp only [metricsGo, Option.some.injEq, Prod.mk.injEq] at hres
    rw [← hres.1]
    rfl
  | cons e rest ih =>
    intro led ms ledF hres
    simp only [metricsGo] at hres
    by_cases hd : e.isDone = true
    · rw [if_pos hd] at hres
      cases hlk : ledgerLookup led e.id_ with
      | none =>
        rw [hlk] at hres
        cases hrec : metricsGo led rest with
        | none => rw [hrec] at hres; exact absurd hres (by simp)
        | some p =>
          rw [hrec] at hres
          simp only [Option.some.injEq, Prod.mk.injEq] at hres
          rw [← hres.1]
          simp [ih led p.1 p.2 (by rw [hrec])]
      | some frags =>
        rw [hlk] at hres
        cases hrec : metricsGo (ledgerRemove led e.id_) rest with
        | none => rw [hrec] at hres; exact absurd hres (by simp)
        | some p =>
          rw [hrec] at hres
          simp only [Option.some.injEq, Prod.mk.injEq] at hres
          rw [← hres.1]
          simp [ih (ledgerRemove led e.id_) p.1 p.2 (by rw [hrec])]
    · rw [if_neg hd] at hres
      exact absurd hres (by simp)

theorem metricsGo_record_spec :
    ∀ (l : List SingleAgentEpisode) (led : List (Nat × List SingleAgentEpisode))
      (i : Nat) (frags : List SingleAgentEpisode)
      (ms : List RolloutMetrics) (ledF : List (Nat × List SingleAgentEpisode)),
      i < l.length → (l.map SingleAgentEpisode.id_).Nodup →
      ledgerLookup led (l.getD i default).id_ = some frags →
      metricsGo led l = some (ms, ledF) →
      ms.getD i ⟨0, 0⟩ =
        ⟨(l.getD i default).epLen + (frags.map SingleAgentEpisode.epLen).sum,
         (l.getD i default).getReturn + (frags.map SingleAgentEpisode.getReturn).sum⟩ ∧
      ledgerLookup ledF (l.getD i default).id_ = none := by
  intro l
  induction l with
  | nil =>
    intro led i frags ms ledF hi
    simp at hi
  | cons e rest ih =>
    intro led i frags ms ledF hi hnd hlk hres
    simp only [metricsGo] at hres
    by_cases hd : e.isDone = true
    · rw [if_pos hd] at hres
      cases i with
      | zero =>
        simp only [List.getD_cons_zero] at hlk ⊢
        rw [hlk] at hres
        cases hrec : metricsGo (ledgerRemove led e.id_) rest with
        | none => rw [hrec] at hres; exact absurd hres (by simp)
        | some p =>
          rw [hrec] at hres
          simp only [Option.some.injEq, Prod.mk.injEq] at hres
          obtain ⟨hms, hledF⟩ := hres
          constructor
          · rw [← hms]
            rfl
          · rw [← hledF]
            exact metricsGo_none_preserved e.id_ rest (ledgerRemove led e.id_) p.1 p.2
              (ledgerLookup_remove_self led e.id_) (by rw [hrec])
      | succ n =>
        simp only [List.getD_cons_succ] at hlk ⊢
        rw [List.map_cons, List.nodup_cons] at hnd
        have hidne : e.id_ ≠ (rest.getD n default).id_ := by
          intro hEq
          apply hnd.1
          rw [hEq]
          exact List.mem_map_of_mem SingleAgentEpisode.id_
            (list_getD_mem rest n default (by simpa using hi))
        -- step the head, then apply the induction hypothesis
        cases hlk0 : ledgerLookup led e.id_ with
        | none =>
          rw [hlk0] at hres
          cases hrec : metricsGo led rest with
          | none => rw [hrec] at hres; exact absurd hres (by simp)
          | some p =>
            rw [hrec] at hres
            simp only [Option.some.injEq, Prod.mk.injEq] at hres
            obtain ⟨hms, hledF⟩ := hres
            obtain ⟨ha, hb⟩ := ih led n frags p.1 p.2 (by simpa using hi) hnd.2 hlk
              (by rw [hrec])
            constructor
            · rw [← hms]
              simpa using ha
            · rw [← hledF]
              exact hb
        | some frags0 =>
          rw [hlk0] at hres
          cases hrec : metricsGo (ledgerRemove led e.id_) rest with
          | none => rw [hrec] at hres; exact absurd hres (by simp)
          | some p =>
            rw [hrec] at hres
            simp only [Option.some.injEq, Prod.mk.injEq] at hres
            obtain ⟨hms, hledF⟩ := hres
            have hlk' : ledgerLookup (ledgerRemove led e.id_)
                (rest.getD n default).id_ = some frags := by
              rw [ledgerLookup_remove_ne _ _ _ (fun h => hidne h.symm)]
              exact hlk
            obtain ⟨ha, hb⟩ := ih (ledgerRemove led e.id_) n frags p.1 p.2
              (by simpa using hi) hnd.2 hlk' (by rw [hrec])
            constructor
            · rw [← hms]
              simpa using ha
            · rw [← hledF]
              exact hb
    · rw [if_neg hd] at hres
      exact absurd hres (by simp)

/-- C4: for a completed episode that was cut `K` times before completing
(`K` earlier fragments recorded in the ongoing-episodes ledger under its
id), the single `get_metrics` record for it carries the summed length and
summed return over all `K + 1` fragments; after `get_metrics` returns,
that id's ledger entry is gone, the completed-episodes list is empty, and
the timesteps-since-last-metrics counter is zero. -/
theorem c4_metrics_aggregate_cut_fragments {σ : Type} (st : RunnerState σ) (i : Nat)
    (frags : List SingleAgentEpisode) (ms : List RolloutMetrics) (st' : RunnerState σ)
    (hi : i < st.doneEpisodesForMetrics.length)
    (hnd : (st.doneEpisodesForMetrics.map SingleAgentEpisode.id_).Nodup)
    (hlk : ledgerLookup st.ongoingEpisodesForMetrics
      (st.doneEpisodesForMetrics.getD i default).id_ = some frags)
    (hres : getMetrics st = some (ms, st')) :
    ms.length = st.doneEpisodesForMetrics.length ∧
    ms.getD i ⟨0, 0⟩ =
      ⟨(st.doneEpisodesForMetrics.getD i default).epLen
          + (frags.map SingleAgentEpisode.epLen).sum,
       (st.doneEpisodesForMetrics.getD i default).getReturn
          + (frags.map SingleAgentEpisode.getReturn).sum⟩ ∧
    ledgerLookup st'.ongoingEpisodesForMetrics
      (st.doneEpisodesForMetrics.getD i default).id_ = none ∧
    st'.doneEpisodesForMetrics = [] ∧
    st'.tsSinceLastMetrics = 0 := by
  unfold getMetrics at hres
  cases hgo : metricsGo st.ongoingEpisodesForMetrics st.doneEpisodesForMetrics with
  | none => rw [hgo] at hres; exact absurd hres (by simp)
  | some p =>
    rw [hgo] at hres
    simp only [Option.some.injEq, Prod.mk.injEq] at hres
    obtain ⟨hms, hst'⟩ := hres
    obtain ⟨ha, hb⟩ := metricsGo_record_spec st.doneEpisodesForMetrics
      st.ongoingEpisodesForMetrics i frags p.1 p.2 hi hnd hlk (by rw [hgo])
    refine ⟨?_, ?_, ?_, ?_, ?_⟩
    · rw [← hms]
      exact metricsGo_length st.doneEpisodesForMetrics st.ongoingEpisodesForMetrics
        p.1 p.2 (by rw [hgo])
    · rw [← hms]
      exact ha
    · rw [← hst']
      exact hb
    · rw [← hst']
    · rw [← hst']

/-- Metrics component of a `get_metrics` result. -/
def metricsOf {σ : Type} (r : Option (List RolloutMetrics × RunnerState σ)) :
    List RolloutMetrics :=
  match r with
  | some (ms, _) => ms
  | none => []

/-- State component of a `get_metrics` result. -/
def metricsState {σ : Type} (d : RunnerState σ)
    (r : Option (List RolloutMetrics × RunnerState σ)) : RunnerState σ :=
  match r with
  | some (_, st) => st
  | none => d

/-- A finished episode (length 1, return 2) whose id 5 was cut once
before completing. -/
def demoDoneEp : SingleAgentEpisode :=
  ⟨5, 9, [0, 1], [0], [2], [0, 0], [[("action_logp", 0)]], true, false, 1, true⟩

/-- The earlier fragment of episode id 5 (length 2, return 2). -/
def demoFrag : SingleAgentEpisode :=
  ⟨5, 4, [0, 1, 2], [0, 0], [1, 1], [0, 0, 0], [[("action_logp", 0)], [("action_logp", 0)]],
    false, false, 2, true⟩

def demoMetricsState : RunnerState Int :=
  { envState := 0, module := none, needsInitialReset := true, episodes := [],
    statesSlots := [], doneEpisodesForMetrics := [demoDoneEp],
    ongoingEpisodesForMetrics := [(5, [demoFrag])], tsSinceLastMetrics := 3,
    nextId := 10, nextInst := 10, log := [] }

theorem c4_witness :
    (metricsOf (getMetrics demoMetricsState)).getD 0 ⟨0, 0⟩ = ⟨3, 4⟩ ∧
    ledgerLookup (metricsState demoMetricsState
      (getMetrics demoMetricsState)).ongoingEpisodesForMetrics 5 = none ∧
    (metricsState demoMetricsState
      (getMetrics demoMetricsState)).doneEpisodesForMetrics = [] ∧
    (metricsState demoMetricsState
      (getMetrics demoMetricsState)).tsSinceLastMetrics = 0 := by
  have h := c4_metrics_aggregate_cut_fragments demoMetricsState 0 [demoFrag]
    (metricsOf (getMetrics demoMetricsState))
    (metricsState demoMetricsState (getMetrics demoMetricsState))
    (by decide) (by decide) (by rfl) (by rfl)
  exact ⟨h.2.1.trans (by decide), h.2.2.1, h.2.2.2.1, h.2.2.2.2⟩

/-! ### Claim C10 -/

theorem list_getD_of_ge {α : Type} (l : List α) (n : Nat) (d : α)
    (h : l.length ≤ n) : l.getD n d = d := by
  induction l generalizing n with
  | nil => cases n <;> rfl
  | cons a as ih =>
    cases n with
    | zero => simp at h
    | succ m =>
      simp only [List.getD_cons_succ]
      exact ih m (by simpa using h)

/-- All recorded extra model outputs (stored or already completed) are the
zero action log-probability alone — the random-action invariant. -/
def ExtrasZero {σ : Type} (l : TLoop σ) : Prop :=
  (∀ e ∈ l.episodes, ∀ x ∈ e.extraModelOutputs, x = [("action_logp", 0)]) ∧
  (∀ e ∈ l.doneAcc, ∀ x ∈ e.extraModelOutputs, x = [("action_logp", 0)])

theorem processSlot_extras {σ : Type} [Inhabited σ] (initOpt : Option σ)
    (acts : Nat → Int) (out : EnvStepOut) (l : TLoop σ) (i : Nat)
    (hE : ExtrasZero l) :
    ExtrasZero (processSlot initOpt acts (fun _ => 0) [] out l i) := by
  obtain ⟨hEp, hDn⟩ := hE
  have hget : ∀ y ∈ (l.episodes.getD i default).extraModelOutputs,
      y = [("action_logp", 0)] := by
    by_cases hi : i < l.episodes.length
    · exact hEp _ (list_getD_mem _ _ _ hi)
    · rw [list_getD_of_ge _ _ _ (by omega)]
      intro y hy
      simp [default] at hy
  have hstep : ∀ (obs act rew info : Int) (tm tr : Bool),
      ∀ x ∈ ((l.episodes.getD i default).addEnvStep obs act rew info
        (extraModelOutputT [] (fun _ => 0) i) tm tr).extraModelOutputs,
      x = [("action_logp", 0)] := by
    intro obs act rew info tm tr x hx
    simp only [SingleAgentEpisode.addEnvStep, List.mem_append] at hx
    rcases hx with hx | hx
    · exact hget x hx
    · rw [List.mem_singleton.mp hx]
      rfl
  by_cases hd : (out.terminateds i || out.truncateds i) = true
  · simp only [processSlot, hd, if_true]
    refine ⟨?_, ?_⟩
    · intro e he x hx
      rcases List.mem_or_eq_of_mem_set he with he' | rfl
      · rcases List.mem_or_eq_of_mem_set he' with he'' | rfl
        · rcases List.mem_or_eq_of_mem_set he'' with he3 | rfl
          · exact hEp e he3 x hx
          · exact hstep _ _ _ _ _ _ x hx
        · exact hstep _ _ _ _ _ _ x
            (by simpa [SingleAgentEpisode.finalize] using hx)
      · simp [SingleAgentEpisode.newWithReset] at hx
    · intro e he x hx
      rcases List.mem_append.mp he with he' | he'
      · exact hDn e he' x hx
      · rw [List.mem_singleton.mp he'] at hx
        exact hstep _ _ _ _ _ _ x
          (by simpa [SingleAgentEpisode.finalize] using hx)
  · simp only [processSlot, hd, Bool.false_eq_true, if_false]
    refine ⟨?_, hDn⟩
    intro e he x hx
    rcases List.mem_or_eq_of_mem_set he with he' | rfl
    · exact hEp e he' x hx
    · exact hstep _ _ _ _ _ _ x hx

theorem processSlots_extras {σ : Type} [Inhabited σ] (initOpt : Option σ)
    (acts : Nat → Int) (out : EnvStepOut) :
    ∀ (slots : List Nat) (l : TLoop σ), ExtrasZero l →
      ExtrasZero ((slots.foldl
        (fun acc i => processSlot initOpt acts (fun _ => 0) [] out acc i) l)) := by
  intro slots
  induction slots with
  | nil => intro l hE; simpa using hE
  | cons i rest ih =>
    intro l hE
    simp only [List.foldl_cons]
    exact ih _ (processSlot_extras initOpt acts out l i hE)

theorem stepOnce_random_extras {σ : Type} [Inhabited σ] (env : VecEnv)
    (module : Option (RLModule σ)) (explore : Bool) (l l' : TLoop σ)
    (hres : stepOnce env module explore true l = .ok l') (hE : ExtrasZero l) :
    ExtrasZero l' := by
  unfold stepOnce actPhase at hres
  simp only [if_true, Except.ok.injEq] at hres
  subst hres
  exact processSlots_extras _ _ _ _ _ hE

theorem tsLoop_random_extras {σ : Type} [Inhabited σ] (env : VecEnv)
    (module : Option (RLModule σ)) (explore : Bool) (T : Nat) :
    ∀ (fuel : Nat) (l : TLoop σ) (ts : Nat) (lf : TLoop σ) (tsf : Nat),
      tsLoop env module explore true T fuel l ts = .ok (some (lf, tsf)) →
      ExtrasZero l → ExtrasZero lf := by
  intro fuel
  induction fuel with
  | zero =>
    intro l ts lf tsf hres hE
    simp only [tsLoop] at hres
    by_cases hlt : ts < T
    · rw [if_pos hlt] at hres
      exact absurd hres (by simp)
    · rw [if_neg hlt] at hres
      simp only [Except.ok.injEq, Option.some.injEq, Prod.mk.injEq] at hres
      rw [← hres.1]
      exact hE
  | succ fuel ih =>
    intro l ts lf tsf hres hE
    simp only [tsLoop] at hres
    by_cases hlt : ts < T
    · rw [if_pos hlt] at hres
      cases hstep : stepOnce env module explore true l with
      | error e => rw [hstep] at hres; exact absurd hres (by simp)
      | ok l1 =>
        rw [hstep] at hres
        exact ih l1 (ts + env.numEnvs) lf tsf hres
          (stepOnce_random_extras env module explore l l1 hstep hE)
    · rw [if_neg hlt] at hres
      simp only [Except.ok.injEq, Option.some.injEq, Prod.mk.injEq] at hres
      rw [← hres.1]
      exact hE

theorem tsLoop_random_some {σ : Type} [Inhabited σ] (env : VecEnv)
    (module : Option (RLModule σ)) (explore : Bool) (T : Nat) (hN : 1 ≤ env.numEnvs) :
    ∀ (fuel : Nat) (l : TLoop σ) (ts : Nat), T ≤ ts + fuel * env.numEnvs →
      ∃ p, tsLoop env module explore true T fuel l ts = .ok (some p) := by
  intro fuel
  induction fuel with
  | zero =>
    intro l ts hfuel
    have : ¬ ts < T := by omega
    exact ⟨(l, ts), by simp [tsLoop, this]⟩
  | succ fuel ih =>
    intro l ts hfuel
    by_cases hlt : ts < T
    · have hok : ∃ l1, stepOnce env module explore true l = .ok l1 := ⟨_, rfl⟩
      obtain ⟨l1, hl1⟩ := hok
      obtain ⟨p, hp⟩ := ih l1 (ts + env.numEnvs) (by
        have h1 : fuel.succ * env.numEnvs = fuel * env.numEnvs + env.numEnvs :=
          Nat.succ_mul fuel env.numEnvs
        have h2 : (fuel + 1) * env.numEnvs = fuel * env.numEnvs + env.numEnvs :=
          Nat.succ_mul fuel env.numEnvs
        omega)
      exact ⟨p, by simp only [tsLoop, if_pos hlt, hl1]; exact hp⟩
    · exact ⟨(l, ts), by simp [tsLoop, hlt]⟩

theorem sampleTimesteps_random_ok_extras {σ : Type} [Inhabited σ] (env : VecEnv)
    (T : Nat) (explore : Bool) (st : RunnerState σ) (hN : 1 ≤ env.numEnvs)
    (hreset : st.needsInitialReset = true) :
    ∃ p, sampleTimesteps env T explore true false st = .ok (some p) ∧
      ∀ e ∈ p.1, ∀ x ∈ e.extraModelOutputs, x = [("action_logp", 0)] := by
  have hE0 : ExtrasZero (tsResetEntry env st) := by
    constructor
    · intro e he x hx
      simp only [tsResetEntry, List.mem_map] at he
      obtain ⟨i, _, rfl⟩ := he
      simp [SingleAgentEpisode.addEnvReset, SingleAgentEpisode.new] at hx
    · intro e he
      simp [tsResetEntry] at he
  have hT : T ≤ 0 + T * env.numEnvs := by
    have h1 : T * 1 ≤ T * env.numEnvs := Nat.mul_le_mul_left T hN
    omega
  obtain ⟨⟨lf, tsf⟩, hloop⟩ :=
    tsLoop_random_some env st.module explore T hN T (tsResetEntry env st) 0 hT
  have hEf : ExtrasZero lf :=
    tsLoop_random_extras env st.module explore T T (tsResetEntry env st) 0 lf tsf
      hloop hE0
  refine ⟨tsExit st lf tsf, ?_, ?_⟩
  · simp only [sampleTimesteps, hreset, Bool.or_true, if_true]
    rw [hloop]
  · intro e he x hx
    simp only [tsExit, List.mem_append] at he
    rcases he with he | he
    · exact hEf.2 e he x hx
    · obtain ⟨e0, he0, rfl⟩ := List.mem_map.mp he
      exact hEf.1 e0 (List.mem_of_mem_filter he0) x
        (by simpa [SingleAgentEpisode.finalize] using hx)

/-- C10: in policy-less mode (`module = None` after degraded
construction, hence `needs_initial_reset` still set), a
`sample(num_timesteps=T, random_actions=True)` call succeeds and every
recorded step's extra model outputs hold exactly the zero action
log-probability; `assert_healthy()` fails in that same state. -/
theorem c10_policyless_random_sampling {σ : Type} [Inhabited σ] (env : VecEnv)
    (cfg : RunnerConfig) (fuel T : Nat) (explore withRenderData : Bool)
    (st : RunnerState σ) (hmod : st.module = none)
    (hreset : st.needsInitialReset = true) (hN : 1 ≤ env.numEnvs) :
    (∃ samples st',
      sampleFn env cfg fuel (some T) none explore true withRenderData st
        = .ok (some (samples, st')) ∧
      ∀ e ∈ samples, ∀ x ∈ e.extraModelOutputs, x = [("action_logp", 0)]) ∧
    assertHealthy st = false := by
  constructor
  · obtain ⟨⟨samples0, st0⟩, hok, hex⟩ :=
      sampleTimesteps_random_ok_extras env T explore st hN hreset
    have hdispatch : sampleFn env cfg fuel (some T) none explore true withRenderData st
        = withSampleEnd (sampleTimesteps env T explore true false st) := rfl
    refine ⟨samples0, { st0 with log := st0.log ++ [REvent.onSampleEnd] }, ?_, hex⟩
    rw [hdispatch, hok]
    rfl
  · simp [assertHealthy, hmod]

theorem c10_witness :
    (∃ samples st',
      sampleFn demoEnvDone ⟨true, 2, 8⟩ 4 (some 2) none true true false demoRunner
        = .ok (some (samples, st')) ∧
      ∀ e ∈ samples, ∀ x ∈ e.extraModelOutputs, x = [("action_logp", 0)]) ∧
    assertHealthy demoRunner = false :=
  c10_policyless_random_sampling demoEnvDone ⟨true, 2, 8⟩ 4 2 true false demoRunner
    rfl rfl (by decide)

/-! ### Claim C1 -/

/-- Total number of environment steps recorded in the loop state: steps
stored in the live per-slot episodes plus steps in the already-completed
episodes of this call. -/
def stepsOf {σ : Type} (l : TLoop σ) : Nat :=
  (l.episodes.map (fun e => e.t)).sum + (l.doneAcc.map (fun e => e.t)).sum

theorem processSlot_steps {σ : Type} [Inhabited σ] (initOpt : Option σ)
    (acts logp : Nat → Int) (entries : List (String × (Nat → Int)))
    (out : EnvStepOut) (l : TLoop σ) (i : Nat) (hi : i < l.episodes.length) :
    (processSlot initOpt acts logp entries out l i).episodes.length
      = l.episodes.length ∧
    stepsOf (processSlot initOpt acts logp entries out l i) = stepsOf l + 1 := by
  by_cases hd : (out.terminateds i || out.truncateds i) = true
  · constructor
    · simp [processSlot, hd]
    · simp only [processSlot, hd, if_true, stepsOf]
      rw [List.set_set, List.set_set]
      have hsum := list_sum_map_set (fun e => e.t) l.episodes i
        (SingleAgentEpisode.newWithReset l.nextId l.nextInst (out.obs i) (out.infos i))
        default hi
      simp only [] at hsum
      have ht0 : (SingleAgentEpisode.newWithReset l.nextId l.nextInst (out.obs i)
        (out.infos i)).t = 0 := rfl
      have htf : (((l.episodes.getD i default).addEnvStep (out.finalObs i) (acts i)
          (out.rewards i) (out.finalInfos i) (extraModelOutputT entries logp i)
          (out.terminateds i) (out.truncateds i)).finalize).t
          = (l.episodes.getD i default).t + 1 := rfl
      simp only [List.map_append, List.sum_append, List.map_cons, List.sum_cons,
        List.map_nil, List.sum_nil]
      omega
  · constructor
    · simp [processSlot, hd]
    · simp only [processSlot, hd, Bool.false_eq_true, if_false, stepsOf]
      have hsum := list_sum_map_set (fun e => e.t) l.episodes i
        ((l.episodes.getD i default).addEnvStep (out.obs i) (acts i) (out.rewards i)
          (out.infos i) (extraModelOutputT entries logp i) false false) default hi
      simp only [] at hsum
      have hts : ((l.episodes.getD i default).addEnvStep (out.obs i) (acts i)
          (out.rewards i) (out.infos i) (extraModelOutputT entries logp i)
          false false).t = (l.episodes.getD i default).t + 1 := rfl
      omega

theorem processSlots_steps {σ : Type} [Inhabited σ] (initOpt : Option σ)
    (acts logp : Nat → Int) (entries : List (String × (Nat → Int))) (out : EnvStepOut) :
    ∀ (slots : List Nat) (l : TLoop σ), (∀ j ∈ slots, j < l.episodes.length) →
      ((slots.foldl (fun acc i => processSlot initOpt acts logp entries out acc i)
        l)).episodes.length = l.episodes.length ∧
      stepsOf (slots.foldl (fun acc i => processSlot initOpt acts logp entries out acc i) l)
        = stepsOf l + slots.length := by
  intro slots
  induction slots with
  | nil => intro l _; exact ⟨rfl, rfl⟩
  | cons i rest ih =>
    intro l hb
    simp only [List.foldl_cons]
    obtain ⟨hl1, hs1⟩ := processSlot_steps initOpt acts logp entries out l i
      (hb i (List.mem_cons_self i rest))
    obtain ⟨hl2, hs2⟩ := ih (processSlot initOpt acts logp entries out l i)
      (fun j hj => by rw [hl1]; exact hb j (List.mem_cons_of_mem i hj))
    refine ⟨by rw [hl2, hl1], ?_⟩
    rw [hs2, hs1]
    simp only [List.length_cons]
    omega

theorem stepOnce_steps {σ : Type} [Inhabited σ] (env : VecEnv)
    (module : Option (RLModule σ)) (explore randomActions : Bool) (l l' : TLoop σ)
    (hres : stepOnce env module explore randomActions l = .ok l')
    (hlen : l.episodes.length = env.numEnvs) :
    l'.episodes.length = env.numEnvs ∧ stepsOf l' = stepsOf l + env.numEnvs := by
  unfold stepOnce at hres
  cases hact : actPhase env module explore randomActions l.envState l.states l.obs with
  | error e => rw [hact] at hres; exact absurd hres (by simp)
  | ok a =>
    rw [hact] at hres
    simp only [Except.ok.injEq] at hres
    subst hres
    obtain ⟨h1, h2⟩ := processSlots_steps (initialStatesOf module) a.acts a.logp
      a.entries (env.stepFn a.envState a.acts).1 (List.range env.numEnvs)
      { l with envState := (env.stepFn a.envState a.acts).2,
               obs := (env.stepFn a.envState a.acts).1.obs, states := a.states,
               log := l.log ++ [REvent.envStep] }
      (fun j hj => by simpa [hlen] using List.mem_range.mp hj)
    constructor
    · rw [h1]; exact hlen
    · rw [h2]
      simp [stepsOf, List.length_range]

theorem tsLoop_steps {σ : Type} [Inhabited σ] (env : VecEnv)
    (module : Option (RLModule σ)) (explore randomActions : Bool) (T : Nat) :
    ∀ (fuel : Nat) (l : TLoop σ) (ts : Nat) (lf : TLoop σ) (tsf : Nat),
      l.episodes.length = env.numEnvs →
      tsLoop env module explore randomActions T fuel l ts = .ok (some (lf, tsf)) →
      lf.episodes.length = env.numEnvs ∧ stepsOf lf + ts = stepsOf l + tsf := by
  intro fuel
  induction fuel with
  | zero =>
    intro l ts lf tsf hlen hres
    simp only [tsLoop] at hres
    by_cases hlt : ts < T
    · rw [if_pos hlt] at hres
      exact absurd hres (by simp)
    · rw [if_neg hlt] at hres
      simp only [Except.ok.injEq, Option.some.injEq, Prod.mk.injEq] at hres
      obtain ⟨h1, h2⟩ := hres
      subst h1; subst h2
      exact ⟨hlen, rfl⟩
  | succ fuel ih =>
    intro l ts lf tsf hlen hres
    simp only [tsLoop] at hres
    by_cases hlt : ts < T
    · rw [if_pos hlt] at hres
      cases hstep : stepOnce env module explore randomActions l with
      | error e => rw [hstep] at hres; exact absurd hres (by simp)
      | ok l1 =>
        rw [hstep] at hres
        obtain ⟨ha, hb⟩ := stepOnce_steps env module explore randomActions l l1 hstep hlen
        obtain ⟨hc, hd⟩ := ih l1 (ts + env.numEnvs) lf tsf ha hres
        exact ⟨hc, by omega⟩
    · rw [if_neg hlt] at hres
      simp only [Except.ok.injEq, Option.some.injEq, Prod.mk.injEq] at hres
      obtain ⟨h1, h2⟩ := hres
      subst h1; subst h2
      exact ⟨hlen, rfl⟩

theorem tsLoop_ts_facts {σ : Type} [Inhabited σ] (env : VecEnv)
    (module : Option (RLModule σ)) (explore randomActions : Bool) (T : Nat) :
    ∀ (fuel : Nat) (l : TLoop σ) (ts : Nat) (lf : TLoop σ) (tsf : Nat),
      tsLoop env module explore randomActions T fuel l ts = .ok (some (lf, tsf)) →
      (∃ k, tsf = ts + k * env.numEnvs) ∧ T ≤ tsf ∧
        (tsf = ts ∨ tsf < T + env.numEnvs) := by
  intro fuel
  induction fuel with
  | zero =>
    intro l ts lf tsf hres
    simp only [tsLoop] at hres
    by_cases hlt : ts < T
    · rw [if_pos hlt] at hres
      exact absurd hres (by simp)
    · rw [if_neg hlt] at hres
      simp only [Except.ok.injEq, Option.some.injEq, Prod.mk.injEq] at hres
      obtain ⟨_, h2⟩ := hres
      subst h2
      exact ⟨⟨0, by omega⟩, by omega, Or.inl rfl⟩
  | succ fuel ih =>
    intro l ts lf tsf hres
    simp only [tsLoop] at hres
    by_cases hlt : ts < T
    · rw [if_pos hlt] at hres
      cases hstep : stepOnce env module explore randomActions l with
      | error e => rw [hstep] at hres; exact absurd hres (by simp)
      | ok l1 =>
        rw [hstep] at hres
        obtain ⟨⟨k, hk⟩, hTle, hdisj⟩ := ih l1 (ts + env.numEnvs) lf tsf hres
        refine ⟨⟨k + 1, by
          have : (k + 1) * env.numEnvs = k * env.numEnvs + env.numEnvs :=
            Nat.succ_mul k env.numEnvs
          omega⟩, hTle, ?_⟩
        rcases hdisj with h | h
        · exact Or.inr (by omega)
        · exact Or.inr h
    · rw [if_neg hlt] at hres
      simp only [Except.ok.injEq, Option.some.injEq, Prod.mk.injEq] at hres
      obtain ⟨_, h2⟩ := hres
      subst h2
      exact ⟨⟨0, by omega⟩, by omega, Or.inl rfl⟩

theorem sum_t_filter_pos (l : List SingleAgentEpisode) :
    ((l.filter (fun e => 0 < e.t)).map (fun e => e.t)).sum
      = (l.map (fun e => e.t)).sum := by
  induction l with
  | nil => rfl
  | cons e es ih =>
    by_cases h : 0 < e.t
    · simp only [List.filter_cons]
      rw [if_pos (by simpa using h)]
      simp only [List.map_cons, List.sum_cons, ih]
    · simp only [List.filter_cons]
      rw [if_neg (by simpa using h)]
      simp only [List.map_cons, List.sum_cons, ih]
      omega

theorem stepsOf_zero {σ : Type} (l : TLoop σ) (h1 : ∀ e ∈ l.episodes, e.t = 0)
    (h2 : l.doneAcc = []) : stepsOf l = 0 := by
  have hz : (l.episodes.map (fun e => e.t)).sum = 0 := List.sum_eq_zero (by
    intro x hx
    obtain ⟨e, he, rfl⟩ := List.mem_map.mp hx
    exact h1 e he)
  simp [stepsOf, h2, hz]

/-- C1: for every sub-environment count `N ≥ 1` and target `T ≥ 1`, a
returning `_sample_timesteps(num_timesteps=T)` call advances the local
step counter `ts` (observable as the increment of the
timesteps-since-last-metrics counter) to exactly the smallest multiple of
`N` that is `≥ T`, and the lengths of the returned terminated episodes
plus returned ongoing cut chunks sum to exactly that number of steps.
The entry hypotheses hold in every reachable state: the slots hold one
episode each, and each held episode is a fresh chunk with `t = 0`. -/
theorem c1_sample_timesteps_step_accounting {σ : Type} [Inhabited σ] (env : VecEnv)
    (T : Nat) (explore randomActions forceReset : Bool) (st : RunnerState σ)
    (samples : List SingleAgentEpisode) (st' : RunnerState σ)
    (hN : 1 ≤ env.numEnvs) (hT : 1 ≤ T)
    (hlen : st.episodes.length = env.numEnvs)
    (ht0 : ∀ e ∈ st.episodes, e.t = 0)
    (hres : sampleTimesteps env T explore randomActions forceReset st
      = .ok (some (samples, st'))) :
    ∃ ts, st'.tsSinceLastMetrics = st.tsSinceLastMetrics + ts ∧
      T ≤ ts ∧ env.numEnvs ∣ ts ∧
      (∀ m, env.numEnvs ∣ m → T ≤ m → ts ≤ m) ∧
      (samples.map SingleAgentEpisode.epLen).sum = ts := by
  unfold sampleTimesteps at hres
  simp only [] at hres
  set l0 : TLoop σ :=
    if forceReset || st.needsInitialReset then tsResetEntry env st
    else tsResumeEntry st with hl0
  have hl0len : l0.episodes.length = env.numEnvs := by
    rw [hl0]
    by_cases hc : (forceReset || st.needsInitialReset) = true
    · simp [hc, tsResetEntry]
    · rw [Bool.not_eq_true] at hc
      simp [hc, tsResumeEntry, hlen]
  have hl0steps : stepsOf l0 = 0 := by
    rw [hl0]
    by_cases hc : (forceReset || st.needsInitialReset) = true
    · rw [if_pos hc]
      apply stepsOf_zero
      · intro e he
        simp only [tsResetEntry, List.mem_map] at he
        obtain ⟨i, _, rfl⟩ := he
        rfl
      · rfl
    · rw [Bool.not_eq_true] at hc
      rw [hc]
      simp only [Bool.false_eq_true, if_false]
      apply stepsOf_zero
      · intro e he
        exact ht0 e he
      · rfl
  cases hloop : tsLoop env st.module explore randomActions T T l0 0 with
  | error e => rw [hloop] at hres; exact absurd hres (by simp)
  | ok o =>
    cases o with
    | none => rw [hloop] at hres; exact absurd hres (by simp)
    | some p =>
      obtain ⟨lf, tsf⟩ := p
      rw [hloop] at hres
      simp only [Except.ok.injEq, Option.some.injEq] at hres
      have hsamples : samples = (tsExit st lf tsf).1 := by rw [hres]
      have hst2 : st' = (tsExit st lf tsf).2 := by rw [hres]
      obtain ⟨hflen, hfsteps⟩ := tsLoop_steps env st.module explore randomActions T T
        l0 0 lf tsf hl0len hloop
      obtain ⟨⟨k, hk⟩, hTle, hdisj⟩ := tsLoop_ts_facts env st.module explore
        randomActions T T l0 0 lf tsf hloop
      have htsfub : tsf < T + env.numEnvs := by
        rcases hdisj with h | h
        · omega
        · exact h
      refine ⟨tsf, ?_, hTle, ⟨k, by
        rw [hk]
        have := Nat.mul_comm k env.numEnvs
        omega⟩, ?_, ?_⟩
      · rw [hst2]
        rfl
      · intro m hdm hTm
        obtain ⟨a, ha⟩ := hdm
        by_contra hcon
        have hma : env.numEnvs * a < env.numEnvs * k := by
          have h1 : tsf = env.numEnvs * k := by
            rw [hk]
            have := Nat.mul_comm k env.numEnvs
            omega
          omega
        have hak : a < k := Nat.lt_of_mul_lt_mul_left hma
        have hstep : env.numEnvs * (a + 1) ≤ env.numEnvs * k :=
          Nat.mul_le_mul_left env.numEnvs (by omega)
        have hexp : env.numEnvs * (a + 1) = env.numEnvs * a + env.numEnvs :=
          Nat.mul_succ env.numEnvs a
        have h1 : tsf = env.numEnvs * k := by
          rw [hk]
          have := Nat.mul_comm k env.numEnvs
          omega
        omega
      · rw [hsamples]
        simp only [tsExit, List.map_append, List.sum_append, List.map_map]
        have hfin : ((lf.episodes.filter (fun e => 0 < e.t)).map
            (SingleAgentEpisode.epLen ∘ SingleAgentEpisode.finalize)).sum
            = ((lf.episodes.filter (fun e => 0 < e.t)).map (fun e => e.t)).sum := rfl
        rw [hfin, sum_t_filter_pos]
        have hdone : (lf.doneAcc.map SingleAgentEpisode.epLen).sum
            = (lf.doneAcc.map (fun e => e.t)).sum := rfl
        rw [hdone]
        have := hfsteps
        simp only [stepsOf] at this hl0steps
        omega

def c1Run : Except String (Option (List SingleAgentEpisode × RunnerState Int)) :=
  sampleTimesteps demoEnvDone 3 true true false demoRunner

theorem c1_witness :
    ∃ ts, (okState demoRunner c1Run).tsSinceLastMetrics
        = demoRunner.tsSinceLastMetrics + ts ∧
      3 ≤ ts ∧ demoEnvDone.numEnvs ∣ ts ∧
      (∀ m, demoEnvDone.numEnvs ∣ m → 3 ≤ m → ts ≤ m) ∧
      ((okSamples c1Run).map SingleAgentEpisode.epLen).sum = ts :=
  c1_sample_timesteps_step_accounting demoEnvDone 3 true true false demoRunner
    (okSamples c1Run) (okState demoRunner c1Run)
    (by decide) (by decide) rfl (by decide) (by rfl)

/-! ### Event-instance machinery for Claims C3 and C6 -/

/-- The episode-object identities carried by the `which`-callbacks of an
event log, in order. -/
def cbInsts (w : String) (log : List REvent) : List Nat :=
  log.filterMap (fun ev => match ev with
    | .cb w2 _ ι => if w2 = w then some ι else none
    | _ => none)

theorem cbInsts_append (w : String) (a b : List REvent) :
    cbInsts w (a ++ b) = cbInsts w a ++ cbInsts w b :=
  List.filterMap_append a b _

theorem cbInsts_block_self (w : String) (n a b : Nat) :
    cbInsts w ((List.range n).map (fun i => REvent.cb w (a + i) (b + i)))
      = (List.range n).map (fun i => b + i) := by
  unfold cbInsts
  rw [List.filterMap_map]
  have hcomp : ((fun ev => match ev with
      | REvent.cb w2 _ ι => if w2 = w then some ι else none
      | _ => none) ∘ fun i => REvent.cb w (a + i) (b + i))
      = some ∘ (fun i : Nat => b + i) := by
    funext i
    simp [Function.comp]
  rw [hcomp, List.filterMap_eq_map]

theorem cbInsts_block_other (w w2 : String) (n a b : Nat) (h : w2 ≠ w) :
    cbInsts w ((List.range n).map (fun i => REvent.cb w2 (a + i) (b + i))) = [] := by
  unfold cbInsts
  rw [List.filterMap_map]
  apply List.filterMap_eq_nil_iff.mpr
  intro i _
  simp [h]

theorem list_set_getD_self {α : Type} (l : List α) (i : Nat) (d : α)
    (h : i < l.length) : l.set i (l.getD i d) = l := by
  induction l generalizing i with
  | nil => rfl
  | cons a as ih =>
    cases i with
    | zero => rfl
    | succ n =>
      simp only [List.getD_cons_succ, List.set]
      rw [ih n (by simpa using h)]

theorem list_getD_map {α β : Type} (f : α → β) (l : List α) (i : Nat) (d : α) :
    (l.map f).getD i (f d) = f (l.getD i d) := by
  induction l generalizing i with
  | nil => cases i <;> rfl
  | cons a as ih =>
    cases i with
    | zero => rfl
    | succ n =>
      simp only [List.map_cons, List.getD_cons_succ]
      exact ih n

theorem nodup_set_of_not_mem {α : Type} (l : List α) (i : Nat) (a : α)
    (hnd : l.Nodup) (ha : a ∉ l) : (l.set i a).Nodup := by
  induction l generalizing i with
  | nil => simp
  | cons b bs ih =>
    cases i with
    | zero =>
      rw [List.set]
      rw [List.nodup_cons] at hnd ⊢
      exact ⟨fun h => ha (List.mem_cons_of_mem b h), hnd.2⟩
    | succ n =>
      rw [List.set]
      rw [List.nodup_cons] at hnd ⊢
      refine ⟨?_, ih n hnd.2 (fun h => ha (List.mem_cons_of_mem b h))⟩
      intro hmem
      rcases List.mem_or_eq_of_mem_set hmem with h | rfl
      · exact hnd.1 h
      · exact ha (List.mem_cons_self b bs)

theorem episodes_set_mem (l : List SingleAgentEpisode) (i : Nat)
    (b : SingleAgentEpisode) (hi : i < l.length)
    (hnd : (l.map (fun e => e.inst)).Nodup) :
    ∀ e ∈ l.set i b, e = b ∨ (e ∈ l ∧ e.inst ≠ (l.getD i default).inst) := by
  intro e he
  rw [List.mem_iff_getElem] at he
  obtain ⟨j, hj, hje⟩ := he
  rw [List.length_set] at hj
  by_cases hij : i = j
  · subst hij
    left
    rw [List.getElem_set] at hje
    rw [if_pos rfl] at hje
    exact hje.symm
  · right
    rw [List.getElem_set, if_neg hij] at hje
    constructor
    · rw [← hje]
      exact List.getElem_mem hj
    · rw [← hje]
      have hpair := (List.nodup_iff_injective_get.mp hnd)
      intro hEq
      have hgd : l.getD i default = l[i] := List.getD_eq_getElem l default hi
      have : (l.map (fun e => e.inst)).get ⟨j, by simpa using hj⟩
          = (l.map (fun e => e.inst)).get ⟨i, by simpa using hi⟩ := by
        simp only [List.get_eq_getElem, List.getElem_map]
        rw [hgd] at hEq
        exact hEq
      have := hpair this
      simp only [Fin.mk.injEq] at this
      exact hij this.symm

/-- Invariant of the timestep loop relevant to episode-object identity:
slot episodes carry identities below the allocation counter, pairwise
distinct, and no slot holds a finished episode. -/
def TInv {σ : Type} (l : TLoop σ) : Prop :=
  (∀ e ∈ l.episodes, e.inst < l.nextInst) ∧
  (l.episodes.map (fun e => e.inst)).Nodup ∧
  (∀ e ∈ l.episodes, e.isDone = false)

/-- Relative facts about a segment of the timestep loop: the events `Δ` it
appends and the episodes `nd` it completes. -/
structure TFacts {σ : Type} (l l' : TLoop σ) (Δ : List REvent)
    (nd : List SingleAgentEpisode) : Prop where
  logEq : l'.log = l.log ++ Δ
  doneEq : l'.doneAcc = l.doneAcc ++ nd
  instMono : l.nextInst ≤ l'.nextInst
  createdNil : cbInsts "on_episode_created" Δ = []
  startsSorted : (cbInsts "on_episode_start" Δ).Pairwise (· < ·)
  startsRange : ∀ ι ∈ cbInsts "on_episode_start" Δ, l.nextInst ≤ ι ∧ ι < l'.nextInst
  endsEq : cbInsts "on_episode_end" Δ = nd.map (fun e => e.inst)
  ndNodup : (nd.map (fun e => e.inst)).Nodup
  ndLt : ∀ e ∈ nd, e.inst < l'.nextInst
  ndSrc : ∀ e ∈ nd, (∃ e0 ∈ l.episodes, e.inst = e0.inst) ∨ l.nextInst ≤ e.inst
  epsNotEnded : ∀ e ∈ l'.episodes, e.inst ∉ nd.map (fun e => e.inst)
  epsSrc : ∀ e ∈ l'.episodes, (∃ e0 ∈ l.episodes, e.inst = e0.inst) ∨ l.nextInst ≤ e.inst
  ndDone : ∀ e ∈ nd, e.isDone = true

theorem TFacts_refl {σ : Type} (l : TLoop σ) : TFacts l l [] [] where
  logEq := by simp
  doneEq := by simp
  instMono := Nat.le_refl _
  createdNil := rfl
  startsSorted := List.Pairwise.nil
  startsRange := by intro ι h; simp [cbInsts] at h
  endsEq := rfl
  ndNodup := List.nodup_nil
  ndLt := by intro e h; simp at h
  ndSrc := by intro e h; simp at h
  epsNotEnded := by intro e _ h; simp at h
  epsSrc := by intro e he; exact Or.inl ⟨e, he, rfl⟩
  ndDone := by intro e h; simp at h

theorem TFacts_trans {σ : Type} {l l1 l2 : TLoop σ} {Δ1 Δ2 : List REvent}
    {nd1 nd2 : List SingleAgentEpisode}
    (f1 : TFacts l l1 Δ1 nd1) (f2 : TFacts l1 l2 Δ2 nd2) :
    TFacts l l2 (Δ1 ++ Δ2) (nd1 ++ nd2) where
  logEq := by rw [f2.logEq, f1.logEq, List.append_assoc]
  doneEq := by rw [f2.doneEq, f1.doneEq, List.append_assoc]
  instMono := Nat.le_trans f1.instMono f2.instMono
  createdNil := by rw [cbInsts_append, f1.createdNil, f2.createdNil]; rfl
  startsSorted := by
    rw [cbInsts_append, List.pairwise_append]
    refine ⟨f1.startsSorted, f2.startsSorted, ?_⟩
    intro x hx y hy
    have h1 := (f1.startsRange x hx).2
    have h2 := (f2.startsRange y hy).1
    omega
  startsRange := by
    intro ι hι
    rw [cbInsts_append, List.mem_append] at hι
    rcases hι with h | h
    · have := f1.startsRange ι h
      have := f2.instMono
      omega
    · have := f2.startsRange ι h
      have := f1.instMono
      omega
  endsEq := by rw [cbInsts_append, f1.endsEq, f2.endsEq, List.map_append]
  ndNodup := by
    rw [List.map_append, List.nodup_append]
    refine ⟨f1.ndNodup, f2.ndNodup, ?_⟩
    intro x hx hx2
    obtain ⟨e1, he1, rfl⟩ := List.mem_map.mp hx
    obtain ⟨e2, he2, hEq⟩ := List.mem_map.mp hx2
    rcases f2.ndSrc e2 he2 with ⟨e0, he0, hinst⟩ | hge
    · apply f1.epsNotEnded e0 he0
      rw [← hinst, hEq]
      exact List.mem_map_of_mem _ he1
    · have := f1.ndLt e1 he1
      omega
  ndLt := by
    intro e he
    rcases List.mem_append.mp he with h | h
    · have := f1.ndLt e h
      have := f2.instMono
      omega
    · exact f2.ndLt e h
  ndSrc := by
    intro e he
    rcases List.mem_append.mp he with h | h
    · exact f1.ndSrc e h
    · rcases f2.ndSrc e h with ⟨e0, he0, hinst⟩ | hge
      · rcases f1.epsSrc e0 he0 with ⟨e00, he00, hinst0⟩ | hge0
        · exact Or.inl ⟨e00, he00, by omega⟩
        · exact Or.inr (by omega)
      · have := f1.instMono
        exact Or.inr (by omega)
  epsNotEnded := by
    intro e he
    rw [List.map_append, List.mem_append]
    rintro (h | h)
    · rcases f2.epsSrc e he with ⟨e0, he0, hinst⟩ | hge
      · apply f1.epsNotEnded e0 he0
        rw [← hinst]
        exact h
      · obtain ⟨e1, he1, hEq⟩ := List.mem_map.mp h
        have := f1.ndLt e1 he1
        omega
    · exact f2.epsNotEnded e he h
  epsSrc := by
    intro e he
    rcases f2.epsSrc e he with ⟨e0, he0, hinst⟩ | hge
    · rcases f1.epsSrc e0 he0 with ⟨e00, he00, hinst0⟩ | hge0
      · exact Or.inl ⟨e00, he00, by omega⟩
      · exact Or.inr (by omega)
    · have := f1.instMono
      exact Or.inr (by omega)
  ndDone := by
    intro e he
    rcases List.mem_append.mp he with h | h
    · exact f1.ndDone e h
    · exact f2.ndDone e h

theorem processSlot_facts {σ : Type} [Inhabited σ] (initOpt : Option σ)
    (acts logp : Nat → Int) (entries : List (String × (Nat → Int)))
    (out : EnvStepOut) (l : TLoop σ) (i : Nat)
    (hi : i < l.episodes.length) (hInv : TInv l) :
    TInv (processSlot initOpt acts logp entries out l i) ∧
    ∃ Δ nd, TFacts l (processSlot initOpt acts logp entries out l i) Δ nd := by
  obtain ⟨hBnd, hNd, hFlag⟩ := hInv
  have hmem0 : l.episodes.getD i default ∈ l.episodes := list_getD_mem _ _ _ hi
  by_cases hd : (out.terminateds i || out.truncateds i) = true
  · set ep0 := (l.episodes.getD i default).addEnvStep (out.finalObs i) (acts i)
      (out.rewards i) (out.finalInfos i) (extraModelOutputT entries logp i)
      (out.terminateds i) (out.truncateds i) with hep0
    set newEp0 := SingleAgentEpisode.newWithReset l.nextId l.nextInst
      (out.obs i) (out.infos i) with hnewEp0
    have heps : (processSlot initOpt acts logp entries out l i).episodes
        = l.episodes.set i newEp0 := by
      simp [processSlot, hd, List.set_set, hep0, hnewEp0]
    have hlog : (processSlot initOpt acts logp entries out l i).log
        = l.log ++ [REvent.cb "on_episode_step" ep0.id_ ep0.inst,
            REvent.cb "on_episode_end" ep0.id_ ep0.inst,
            REvent.cb "on_episode_start" l.nextId l.nextInst] := by
      simp [processSlot, hd, hep0, hnewEp0, SingleAgentEpisode.newWithReset]
    have hdoneAcc : (processSlot initOpt acts logp entries out l i).doneAcc
        = l.doneAcc ++ [ep0.finalize] := by
      simp [processSlot, hd, hep0]
    have hninst : (processSlot initOpt acts logp entries out l i).nextInst
        = l.nextInst + 1 := by
      simp [processSlot, hd]
    have hep0inst : ep0.inst = (l.episodes.getD i default).inst := rfl
    have hnewinst : newEp0.inst = l.nextInst := rfl
    have hep0lt : ep0.inst < l.nextInst := by
      rw [hep0inst]
      exact hBnd _ hmem0
    constructor
    · refine ⟨?_, ?_, ?_⟩
      · intro e he
        rw [heps] at he
        rw [hninst]
        rcases List.mem_or_eq_of_mem_set he with h | rfl
        · have := hBnd e h
          omega
        · rw [hnewinst]
          omega
      · rw [heps, List.map_set]
        apply nodup_set_of_not_mem _ _ _ hNd
        intro hcon
        obtain ⟨e, he, hEq⟩ := List.mem_map.mp hcon
        have := hBnd e he
        rw [hnewinst] at hEq
        omega
      · intro e he
        rw [heps] at he
        rcases List.mem_or_eq_of_mem_set he with h | rfl
        · exact hFlag e h
        · rfl
    · refine ⟨[REvent.cb "on_episode_step" ep0.id_ ep0.inst,
          REvent.cb "on_episode_end" ep0.id_ ep0.inst,
          REvent.cb "on_episode_start" l.nextId l.nextInst],
        [ep0.finalize], ?_⟩
      have hstarts : cbInsts "on_episode_start"
          [REvent.cb "on_episode_step" ep0.id_ ep0.inst,
           REvent.cb "on_episode_end" ep0.id_ ep0.inst,
           REvent.cb "on_episode_start" l.nextId l.nextInst] = [l.nextInst] := by
        simp [cbInsts]
      have hends : cbInsts "on_episode_end"
          [REvent.cb "on_episode_step" ep0.id_ ep0.inst,
           REvent.cb "on_episode_end" ep0.id_ ep0.inst,
           REvent.cb "on_episode_start" l.nextId l.nextInst] = [ep0.inst] := by
        simp [cbInsts]
      refine
        { logEq := hlog
          doneEq := hdoneAcc
          instMono := by rw [hninst]; omega
          createdNil := by simp [cbInsts]
          startsSorted := by rw [hstarts]; simp
          startsRange := by
            rw [hstarts, hninst]
            intro ι hι
            rw [List.mem_singleton.mp hι]
            omega
          endsEq := by rw [hends]; rfl
          ndNodup := by simp
          ndLt := ?_
          ndSrc := ?_
          epsNotEnded := ?_
          epsSrc := ?_
          ndDone := ?_ }
      · intro e he
        rw [List.mem_singleton.mp he, hninst]
        have : SingleAgentEpisode.finalize ep0 = { ep0 with isFinalized := true } := rfl
        rw [this]
        simp only []
        omega
      · intro e he
        rw [List.mem_singleton.mp he]
        exact Or.inl ⟨l.episodes.getD i default, hmem0, rfl⟩
      · intro e he
        rw [heps] at he
        simp only [List.map_cons, List.map_nil, List.mem_singleton]
        have hfin : (SingleAgentEpisode.finalize ep0).inst = ep0.inst := rfl
        rw [hfin]
        rcases episodes_set_mem l.episodes i newEp0 hi hNd e he with rfl | ⟨_, hne⟩
        · rw [hnewinst]
          omega
        · rw [hep0inst]
          exact hne
      · intro e he
        rw [heps] at he
        rcases List.mem_or_eq_of_mem_set he with h | rfl
        · exact Or.inl ⟨e, h, rfl⟩
        · rw [hnewinst]
          exact Or.inr (Nat.le_refl _)
      · intro e he
        rw [List.mem_singleton.mp he]
        simp [SingleAgentEpisode.isDone, SingleAgentEpisode.finalize,
          SingleAgentEpisode.addEnvStep, hep0, hd]
  · set ep1 := (l.episodes.getD i default).addEnvStep (out.obs i) (acts i)
      (out.rewards i) (out.infos i) (extraModelOutputT entries logp i)
      false false with hep1
    have heps : (processSlot initOpt acts logp entries out l i).episodes
        = l.episodes.set i ep1 := by
      simp [processSlot, hd, hep1]
    have hlog : (processSlot initOpt acts logp entries out l i).log
        = l.log ++ [REvent.cb "on_episode_step" ep1.id_ ep1.inst] := by
      simp [processSlot, hd, hep1]
    have hdoneAcc : (processSlot initOpt acts logp entries out l i).doneAcc
        = l.doneAcc := by
      simp [processSlot, hd]
    have hninst : (processSlot initOpt acts logp entries out l i).nextInst
        = l.nextInst := by
      simp [processSlot, hd]
    have hep1inst : ep1.inst = (l.episodes.getD i default).inst := rfl
    constructor
    · refine ⟨?_, ?_, ?_⟩
      · intro e he
        rw [heps] at he
        rw [hninst]
        rcases List.mem_or_eq_of_mem_set he with h | rfl
        · exact hBnd e h
        · rw [hep1inst]
          exact hBnd _ hmem0
      · rw [heps, List.map_set]
        have h1 : ep1.inst = (l.episodes.map (fun e => e.inst)).getD i
            ((default : SingleAgentEpisode).inst) := by
          rw [list_getD_map]
          rfl
        rw [h1, list_set_getD_self _ _ _ (by simpa using hi)]
        exact hNd
      · intro e he
        rw [heps] at he
        rcases List.mem_or_eq_of_mem_set he with h | rfl
        · exact hFlag e h
        · rfl
    · refine ⟨[REvent.cb "on_episode_step" ep1.id_ ep1.inst], [], ?_⟩
      refine
        { logEq := hlog
          doneEq := by rw [hdoneAcc]; simp
          instMono := by rw [hninst]
          createdNil := by simp [cbInsts]
          startsSorted := by simp [cbInsts]
          startsRange := by
            intro ι hι
            simp [cbInsts] at hι
          endsEq := by simp [cbInsts]
          ndNodup := by simp
          ndLt := by intro e he; simp at he
          ndSrc := by intro e he; simp at he
          epsNotEnded := by
            intro e _ hcon
            simp at hcon
          epsSrc := ?_
          ndDone := by intro e he; simp at he }
      intro e he
      rw [heps] at he
      rcases List.mem_or_eq_of_mem_set he with h | rfl
      · exact Or.inl ⟨e, h, rfl⟩
      · exact Or.inl ⟨l.episodes.getD i default, hmem0, hep1inst⟩

theorem processSlots_facts {σ : Type} [Inhabited σ] (initOpt : Option σ)
    (acts logp : Nat → Int) (entries : List (String × (Nat → Int))) (out : EnvStepOut) :
    ∀ (slots : List Nat) (l : TLoop σ), TInv l →
      (∀ j ∈ slots, j < l.episodes.length) →
      TInv (slots.foldl (fun acc i => processSlot initOpt acts logp entries out acc i) l) ∧
      ∃ Δ nd, TFacts l
        (slots.foldl (fun acc i => processSlot initOpt acts logp entries out acc i) l)
        Δ nd := by
  intro slots
  induction slots with
  | nil =>
    intro l hInv _
    exact ⟨hInv, [], [], TFacts_refl l⟩
  | cons i rest ih =>
    intro l hInv hb
    simp only [List.foldl_cons]
    have hi : i < l.episodes.length := hb i (List.mem_cons_self i rest)
    obtain ⟨hInv1, Δ1, nd1, hf1⟩ :=
      processSlot_facts initOpt acts logp entries out l i hi hInv
    have hlen1 : (processSlot initOpt acts logp entries out l i).episodes.length
        = l.episodes.length :=
      (processSlot_steps initOpt acts logp entries out l i hi).1
    obtain ⟨hInv2, Δ2, nd2, hf2⟩ := ih (processSlot initOpt acts logp entries out l i)
      hInv1 (fun j hj => by rw [hlen1]; exact hb j (List.mem_cons_of_mem i hj))
    exact ⟨hInv2, Δ1 ++ Δ2, nd1 ++ nd2, TFacts_trans hf1 hf2⟩

theorem stepOnce_facts {σ : Type} [Inhabited σ] (env : VecEnv)
    (module : Option (RLModule σ)) (explore randomActions : Bool) (l l' : TLoop σ)
    (hres : stepOnce env module explore randomActions l = .ok l')
    (hInv : TInv l) (hlen : l.episodes.length = env.numEnvs) :
    TInv l' ∧ ∃ Δ nd, TFacts l l' Δ nd := by
  unfold stepOnce at hres
  cases hact : actPhase env module explore randomActions l.envState l.states l.obs with
  | error e => rw [hact] at hres; exact absurd hres (by simp)
  | ok a =>
    rw [hact] at hres
    simp only [Except.ok.injEq] at hres
    subst hres
    set l1 : TLoop σ :=
      { l with envState := (env.stepFn a.envState a.acts).2,
               obs := (env.stepFn a.envState a.acts).1.obs, states := a.states,
               log := l.log ++ [REvent.envStep] } with hl1
    have hInv1 : TInv l1 := hInv
    have hf1 : TFacts l l1 [REvent.envStep] [] :=
      { logEq := rfl
        doneEq := by simp
        instMono := Nat.le_refl _
        createdNil := rfl
        startsSorted := by simp [cbInsts]
        startsRange := by intro ι hι; simp [cbInsts] at hι
        endsEq := rfl
        ndNodup := by simp
        ndLt := by intro e he; simp at he
        ndSrc := by intro e he; simp at he
        epsNotEnded := by intro e _ hcon; simp at hcon
        epsSrc := by intro e he; exact Or.inl ⟨e, he, rfl⟩
        ndDone := by intro e he; simp at he }
    obtain ⟨hInv2, Δ2, nd2, hf2⟩ := processSlots_facts (initialStatesOf module)
      a.acts a.logp a.entries (env.stepFn a.envState a.acts).1
      (List.range env.numEnvs) l1 hInv1
      (fun j hj => by
        have : l1.episodes.length = env.numEnvs := hlen
        rw [this]
        exact List.mem_range.mp hj)
    exact ⟨hInv2, [REvent.envStep] ++ Δ2, [] ++ nd2, TFacts_trans hf1 hf2⟩

theorem tsLoop_facts {σ : Type} [Inhabited σ] (env : VecEnv)
    (module : Option (RLModule σ)) (explore randomActions : Bool) (T : Nat) :
    ∀ (fuel : Nat) (l : TLoop σ) (ts : Nat) (lf : TLoop σ) (tsf : Nat),
      tsLoop env module explore randomActions T fuel l ts = .ok (some (lf, tsf)) →
      TInv l → l.episodes.length = env.numEnvs →
      TInv lf ∧ ∃ Δ nd, TFacts l lf Δ nd := by
  intro fuel
  induction fuel with
  | zero =>
    intro l ts lf tsf hres hInv hlen
    simp only [tsLoop] at hres
    by_cases hlt : ts < T
    · rw [if_pos hlt] at hres
      exact absurd hres (by simp)
    · rw [if_neg hlt] at hres
      simp only [Except.ok.injEq, Option.some.injEq, Prod.mk.injEq] at hres
      obtain ⟨h1, _⟩ := hres
      subst h1
      exact ⟨hInv, [], [], TFacts_refl l⟩
  | succ fuel ih =>
    intro l ts lf tsf hres hInv hlen
    simp only [tsLoop] at hres
    by_cases hlt : ts < T
    · rw [if_pos hlt] at hres
      cases hstep : stepOnce env module explore randomActions l with
      | error e => rw [hstep] at hres; exact absurd hres (by simp)
      | ok l1 =>
        rw [hstep] at hres
        obtain ⟨hInv1, Δ1, nd1, hf1⟩ :=
          stepOnce_facts env module explore randomActions l l1 hstep hInv hlen
        have hlen1 : l1.episodes.length = env.numEnvs :=
          (stepOnce_steps env module explore randomActions l l1 hstep hlen).1
        obtain ⟨hInv2, Δ2, nd2, hf2⟩ := ih l1 (ts + env.numEnvs) lf tsf hres hInv1 hlen1
        exact ⟨hInv2, Δ1 ++ Δ2, nd1 ++ nd2, TFacts_trans hf1 hf2⟩
    · rw [if_neg hlt] at hres
      simp only [Except.ok.injEq, Option.some.injEq, Prod.mk.injEq] at hres
      obtain ⟨h1, _⟩ := hres
      subst h1
      exact ⟨hInv, [], [], TFacts_refl l⟩

/-! ### Ledger registration lemmas for Claim C3 -/

theorem ledgerAppend_mem_self (led : List (Nat × List SingleAgentEpisode))
    (id : Nat) (e : SingleAgentEpisode) :
    ∃ fr, ledgerLookup (ledgerAppend led id e) id = some fr ∧ e ∈ fr := by
  unfold ledgerAppend
  by_cases hp : (led.find? (fun kv => kv.1 == id)).isSome = true
  · rw [if_pos hp]
    induction led with
    | nil => simp at hp
    | cons kv rest ih =>
      by_cases hk : kv.1 = id
      · refine ⟨kv.2 ++ [e], ?_, by simp⟩
        simp [ledgerLookup, hk]
      · have hp' : (rest.find? (fun kv => kv.1 == id)).isSome = true := by
          rw [List.find?_cons_of_neg _ (by simp [hk])] at hp
          exact hp
        obtain ⟨fr, hfr, hme⟩ := ih hp'
        refine ⟨fr, ?_, hme⟩
        simp only [List.map_cons]
        rw [if_neg (by simp [hk])]
        rw [ledgerLookup, List.find?_cons_of_neg _ (by simp [hk])]
        exact hfr
  · rw [if_neg hp]
    refine ⟨[e], ?_, by simp⟩
    have hnone : led.find? (fun kv => kv.1 == id) = none := by
      cases h : led.find? (fun kv => kv.1 == id)
      · rfl
      · rw [h] at hp
        simp at hp
    rw [ledgerLookup, List.find?_append, hnone]
    simp

theorem ledgerAppend_preserves_mem (led : List (Nat × List SingleAgentEpisode))
    (id id2 : Nat) (e2 e : SingleAgentEpisode) (fr : List SingleAgentEpisode)
    (hlk : ledgerLookup led id = some fr) (hme : e ∈ fr) :
    ∃ fr2, ledgerLookup (ledgerAppend led id2 e2) id = some fr2 ∧ e ∈ fr2 := by
  unfold ledgerAppend
  by_cases hp : (led.find? (fun kv => kv.1 == id2)).isSome = true
  · rw [if_pos hp]
    clear hp
    induction led with
    | nil => simp [ledgerLookup] at hlk
    | cons kv rest ih =>
      by_cases hk : kv.1 = id
      · rw [ledgerLookup, List.find?_cons_of_pos _ (by simp [hk])] at hlk
        simp only [Option.map_some', Option.some.injEq] at hlk
        by_cases hk2 : kv.1 = id2
        · refine ⟨fr ++ [e2], ?_, List.mem_append_left _ hme⟩
          simp only [List.map_cons]
          rw [if_pos (by simp [hk2])]
          rw [ledgerLookup, List.find?_cons_of_pos _ (by simp [hk])]
          simp [hlk]
        · refine ⟨fr, ?_, hme⟩
          simp only [List.map_cons]
          rw [if_neg (by simp [hk2])]
          rw [ledgerLookup, List.find?_cons_of_pos _ (by simp [hk])]
          simp [hlk]
      · rw [ledgerLookup, List.find?_cons_of_neg _ (by simp [hk])] at hlk
        obtain ⟨fr2, hfr2, hme2⟩ := ih hlk
        refine ⟨fr2, ?_, hme2⟩
        simp only [List.map_cons]
        by_cases hk2 : kv.1 = id2
        · rw [if_pos (by simp [hk2])]
          rw [ledgerLookup, List.find?_cons_of_neg _ (by simp [hk])]
          exact hfr2
        · rw [if_neg (by simp [hk2])]
          rw [ledgerLookup, List.find?_cons_of_neg _ (by simp [hk])]
          exact hfr2
  · rw [if_neg hp]
    refine ⟨fr, ?_, hme⟩
    rw [ledgerLookup, List.find?_append]
    rw [ledgerLookup] at hlk
    cases h : led.find? (fun kv => kv.1 == id) with
    | none => rw [h] at hlk; simp at hlk
    | some kv =>
      rw [h] at hlk
      simp only [Option.map_some', Option.some.injEq] at hlk
      simp [h, hlk]

theorem ledger_fold_preserves (L : List SingleAgentEpisode) :
    ∀ (led : List (Nat × List SingleAgentEpisode)) (id : Nat)
      (fr : List SingleAgentEpisode) (e : SingleAgentEpisode),
      ledgerLookup led id = some fr → e ∈ fr →
      ∃ fr2, ledgerLookup (L.foldl (fun a x => ledgerAppend a x.id_ x) led) id
          = some fr2 ∧ e ∈ fr2 := by
  induction L with
  | nil =>
    intro led id fr e hlk hme
    exact ⟨fr, hlk, hme⟩
  | cons x L ih =>
    intro led id fr e hlk hme
    simp only [List.foldl_cons]
    obtain ⟨fr2, hfr2, hme2⟩ := ledgerAppend_preserves_mem led id x.id_ x e fr hlk hme
    exact ih _ id fr2 e hfr2 hme2

theorem ledger_fold_registered (L : List SingleAgentEpisode) :
    ∀ (led : List (Nat × List SingleAgentEpisode)) (e : SingleAgentEpisode), e ∈ L →
      ∃ fr, ledgerLookup (L.foldl (fun a x => ledgerAppend a x.id_ x) led) e.id_
          = some fr ∧ e ∈ fr := by
  induction L with
  | nil =>
    intro led e he
    simp at he
  | cons x L ih =>
    intro led e he
    simp only [List.foldl_cons]
    rcases List.mem_cons.mp he with rfl | he'
    · obtain ⟨fr, hfr, hme⟩ := ledgerAppend_mem_self led e.id_ e
      exact ledger_fold_preserves L _ e.id_ fr e hfr hme
    · exact ih _ e he'

theorem list_getD_range_map {α : Type} (f : Nat → α) (n j : Nat) (d : α) (h : j < n) :
    ((List.range n).map f).getD j d = f j := by
  rw [List.getD_eq_getElem _ _ (by simpa using h)]
  simp

theorem tsResetEntry_inv {σ : Type} [Inhabited σ] (env : VecEnv)
    (st : RunnerState σ) : TInv (tsResetEntry env st) := by
  refine ⟨?_, ?_, ?_⟩
  · intro e he
    simp only [tsResetEntry, List.mem_map] at he
    obtain ⟨i, hi, rfl⟩ := he
    simp only [tsResetEntry]
    have := List.mem_range.mp hi
    simp [SingleAgentEpisode.addEnvReset, SingleAgentEpisode.new]
    omega
  · simp only [tsResetEntry, List.map_map]
    have hcomp : ((fun e => e.inst) ∘ fun i =>
        (SingleAgentEpisode.new (st.nextId + i) (st.nextInst + i)).addEnvReset
          ((env.resetFn st.envState).1 i) ((env.resetFn st.envState).2.1 i))
        = fun i => st.nextInst + i := rfl
    rw [hcomp]
    exact List.Nodup.map (fun a b h => by omega) (List.nodup_range _)
  · intro e he
    simp only [tsResetEntry, List.mem_map] at he
    obtain ⟨i, _, rfl⟩ := he
    rfl

/-- C3: the list returned by `_sample_timesteps` is the terminated
episodes in termination order (their object identities agree with the
order of the `on_episode_end` events fired during the call), followed by
the finalized cut chunks of the slots in slot order with the `t = 0`
chunks excluded; the engine keeps as its new slot episodes the
continuations of the same episode ids with `t = 0`; and every returned
ongoing chunk is registered in the ongoing-episodes metrics ledger under
its episode id.  The entry hypotheses hold in every reachable state. -/
theorem c3_sample_timesteps_return_structure {σ : Type} [Inhabited σ] (env : VecEnv)
    (T : Nat) (explore randomActions forceReset : Bool) (st : RunnerState σ)
    (samples : List SingleAgentEpisode) (st' : RunnerState σ)
    (hlen : st.episodes.length = env.numEnvs)
    (hinstB : ∀ e ∈ st.episodes, e.inst < st.nextInst)
    (hinstNd : (st.episodes.map (fun e => e.inst)).Nodup)
    (hflag : ∀ e ∈ st.episodes, e.isDone = false)
    (hres : sampleTimesteps env T explore randomActions forceReset st
      = .ok (some (samples, st'))) :
    ∃ (Δ : List REvent) (doneEps preCut : List SingleAgentEpisode),
      st'.log = st.log ++ Δ ∧
      samples = doneEps
        ++ (preCut.filter (fun e => 0 < e.t)).map SingleAgentEpisode.finalize ∧
      (∀ e ∈ doneEps, e.isDone = true) ∧
      doneEps.map (fun e => e.inst) = cbInsts "on_episode_end" Δ ∧
      preCut.length = env.numEnvs ∧
      st'.episodes.length = env.numEnvs ∧
      (∀ i, i < env.numEnvs →
        (st'.episodes.getD i default).id_ = (preCut.getD i default).id_ ∧
        (st'.episodes.getD i default).t = 0) ∧
      (∀ e ∈ (preCut.filter (fun e => 0 < e.t)).map SingleAgentEpisode.finalize,
        ∃ frags, ledgerLookup st'.ongoingEpisodesForMetrics e.id_ = some frags ∧
          e ∈ frags) := by
  unfold sampleTimesteps at hres
  simp only [] at hres
  set l0 : TLoop σ :=
    if forceReset || st.needsInitialReset then tsResetEntry env st
    else tsResumeEntry st with hl0
  have hl0len : l0.episodes.length = env.numEnvs := by
    rw [hl0]
    by_cases hc : (forceReset || st.needsInitialReset) = true
    · simp [hc, tsResetEntry]
    · rw [Bool.not_eq_true] at hc
      simp [hc, tsResumeEntry, hlen]
  have hl0inv : TInv l0 := by
    rw [hl0]
    by_cases hc : (forceReset || st.needsInitialReset) = true
    · rw [if_pos hc]
      exact tsResetEntry_inv env st
    · rw [Bool.not_eq_true] at hc
      rw [hc]
      simp only [Bool.false_eq_true, if_false]
      exact ⟨hinstB, hinstNd, hflag⟩
  have hl0log : ∃ δ0, l0.log = st.log ++ δ0 ∧ cbInsts "on_episode_end" δ0 = [] := by
    rw [hl0]
    by_cases hc : (forceReset || st.needsInitialReset) = true
    · rw [if_pos hc]
      refine ⟨(List.range env.numEnvs).map (fun i =>
          REvent.cb "on_episode_created" (st.nextId + i) (st.nextInst + i))
        ++ [REvent.envReset]
        ++ (List.range env.numEnvs).map (fun i =>
          REvent.cb "on_episode_start" (st.nextId + i) (st.nextInst + i)), ?_, ?_⟩
      · simp [tsResetEntry, List.append_assoc]
      · rw [cbInsts_append, cbInsts_append]
        rw [cbInsts_block_other _ _ _ _ _ (by decide),
          cbInsts_block_other _ _ _ _ _ (by decide)]
        rfl
    · rw [Bool.not_eq_true] at hc
      rw [hc]
      simp only [Bool.false_eq_true, if_false]
      exact ⟨[], by simp [tsResumeEntry], rfl⟩
  cases hloop : tsLoop env st.module explore randomActions T T l0 0 with
  | error e => rw [hloop] at hres; exact absurd hres (by simp)
  | ok o =>
    cases o with
    | none => rw [hloop] at hres; exact absurd hres (by simp)
    | some p =>
      obtain ⟨lf, tsf⟩ := p
      rw [hloop] at hres
      simp only [Except.ok.injEq, Option.some.injEq] at hres
      have hsamples : samples = (tsExit st lf tsf).1 := by rw [hres]
      have hst2 : st' = (tsExit st lf tsf).2 := by rw [hres]
      obtain ⟨hflen, _⟩ := tsLoop_steps env st.module explore randomActions T T
        l0 0 lf tsf hl0len hloop
      obtain ⟨hInvf, Δ, nd, hf⟩ := tsLoop_facts env st.module explore randomActions T T
        l0 0 lf tsf hloop hl0inv hl0len
      obtain ⟨δ0, hδ0, hδ0end⟩ := hl0log
      have hdoneAcc : lf.doneAcc = nd := by
        have := hf.doneEq
        rw [hl0] at this
        by_cases hc : (forceReset || st.needsInitialReset) = true
        · rw [if_pos hc] at this
          simpa [tsResetEntry] using this
        · rw [Bool.not_eq_true] at hc
          rw [hc] at this
          simpa [tsResumeEntry] using this
      refine ⟨δ0 ++ Δ, nd, lf.episodes, ?_, ?_, ?_, ?_, ?_, ?_, ?_, ?_⟩
      · rw [hst2]
        show lf.log = st.log ++ (δ0 ++ Δ)
        rw [hf.logEq, hδ0, List.append_assoc]
      · rw [hsamples]
        show lf.doneAcc ++ _ = _
        rw [hdoneAcc]
      · exact hf.ndDone
      · rw [cbInsts_append, hδ0end, hf.endsEq]
        simp
      · exact hflen
      · rw [hst2]
        show ((List.range lf.episodes.length).map _).length = env.numEnvs
        simp [hflen]
      · intro i hi
        rw [hst2]
        show (((List.range lf.episodes.length).map (fun i =>
            (lf.episodes.getD i default).cut (lf.nextInst + i))).getD i default).id_
              = (lf.episodes.getD i default).id_ ∧
          (((List.range lf.episodes.length).map (fun i =>
            (lf.episodes.getD i default).cut (lf.nextInst + i))).getD i default).t = 0
        rw [list_getD_range_map _ _ _ _ (by rw [hflen]; exact hi)]
        exact ⟨rfl, rfl⟩
      · intro e he
        rw [hst2]
        exact ledger_fold_registered _ st.ongoingEpisodesForMetrics e he

/-- A concrete two-slot environment whose episodes last three steps. -/
def demoCycEnv : VecEnv :=
  { numEnvs := 2
    resetFn := fun _ => (fun _ => 0, fun _ => 0, 0)
    stepFn := fun s _ =>
      ({ obs := fun _ => Int.ofNat s, rewards := fun i => Int.ofNat (i + 1),
         terminateds := fun _ => decide ((s + 1) % 3 = 0), truncateds := fun _ => false,
         infos := fun _ => 0, finalObs := fun _ => 5, finalInfos := fun _ => 9 }, s + 1)
    actionSample := fun s => (fun _ => 3, s) }

def demoCycRunner : RunnerState Int := mkInitialState demoCycEnv 0 none

def c3Run : Except String (Option (List SingleAgentEpisode × RunnerState Int)) :=
  sampleTimesteps demoCycEnv 7 true true false demoCycRunner

theorem c3_witness :
    ∃ (Δ : List REvent) (doneEps preCut : List SingleAgentEpisode),
      (okState demoCycRunner c3Run).log = demoCycRunner.log ++ Δ ∧
      okSamples c3Run = doneEps
        ++ (preCut.filter (fun e => 0 < e.t)).map SingleAgentEpisode.finalize ∧
      (∀ e ∈ doneEps, e.isDone = true) ∧
      doneEps.map (fun e => e.inst) = cbInsts "on_episode_end" Δ ∧
      preCut.length = demoCycEnv.numEnvs ∧
      (okState demoCycRunner c3Run).episodes.length = demoCycEnv.numEnvs ∧
      (∀ i, i < demoCycEnv.numEnvs →
        ((okState demoCycRunner c3Run).episodes.getD i default).id_
            = (preCut.getD i default).id_ ∧
        ((okState demoCycRunner c3Run).episodes.getD i default).t = 0) ∧
      (∀ e ∈ (preCut.filter (fun e => 0 < e.t)).map SingleAgentEpisode.finalize,
        ∃ frags, ledgerLookup
          (okState demoCycRunner c3Run).ongoingEpisodesForMetrics e.id_
            = some frags ∧ e ∈ frags) :=
  c3_sample_timesteps_return_structure demoCycEnv 7 true true false demoCycRunner
    (okSamples c3Run) (okState demoCycRunner c3Run)
    rfl (by decide) (by decide) (by decide) (by rfl)

/-! ### Claim C6 -/

def c6Run : Except String (Option (List SingleAgentEpisode × RunnerState Int)) :=
  sampleTimesteps demoEnvDone 1 true true false demoRunner

/-- Counterexample to C6 as stated: in a concrete one-step run, the
replacement episode instance 4 (created at line 336 after its slot
terminated) receives an `on_episode_start` callback but no
`on_episode_created` callback, so not every engine-created instance
receives one created/started pair. -/
theorem c6_counterexample :
    (cbInsts "on_episode_start" (okState demoRunner c6Run).log).count 4 = 1 ∧
    (cbInsts "on_episode_created" (okState demoRunner c6Run).log).count 4 = 0 := by
  decide

/-- Identity invariant of the `_sample_episodes` loop, paralleling the
identity part of `TInv`: slot episodes carry identities below the
allocation counter, pairwise distinct. -/
def EInv {σ : Type} (l : ELoop σ) : Prop :=
  (∀ e ∈ l.episodes, e.inst < l.nextInst) ∧
  (l.episodes.map (fun e => e.inst)).Nodup

/-- Relative facts about a segment of the `_sample_episodes` loop,
paralleling `TFacts`: the events `Δ` it appends and the episodes `nd` it
completes.  The slots-hold-no-completed-instance field is conditional on
the loop still being able to continue (`epsCount < M`): the finishing
slot of the `break` at lines 502-503 keeps its completed episode, but
the loop then exits at once. -/
structure EFacts {σ : Type} (M : Nat) (l l' : ELoop σ) (Δ : List REvent)
    (nd : List SingleAgentEpisode) : Prop where
  logEq : l'.log = l.log ++ Δ
  doneEq : l'.doneAcc = l.doneAcc ++ nd
  instMono : l.nextInst ≤ l'.nextInst
  createdNil : cbInsts "on_episode_created" Δ = []
  startsSorted : (cbInsts "on_episode_start" Δ).Pairwise (· < ·)
  startsRange : ∀ ι ∈ cbInsts "on_episode_start" Δ, l.nextInst ≤ ι ∧ ι < l'.nextInst
  endsEq : cbInsts "on_episode_end" Δ = nd.map (fun e => e.inst)
  ndNodup : (nd.map (fun e => e.inst)).Nodup
  ndLt : ∀ e ∈ nd, e.inst < l'.nextInst
  ndSrc : ∀ e ∈ nd, (∃ e0 ∈ l.episodes, e.inst = e0.inst) ∨ l.nextInst ≤ e.inst
  epsNotEnded : l'.epsCount < M →
    ∀ e ∈ l'.episodes, e.inst ∉ nd.map (fun e => e.inst)
  epsSrc : ∀ e ∈ l'.episodes, (∃ e0 ∈ l.episodes, e.inst = e0.inst) ∨ l.nextInst ≤ e.inst

theorem EFacts_refl {σ : Type} (M : Nat) (l : ELoop σ) : EFacts M l l [] [] where
  logEq := by simp
  doneEq := by simp
  instMono := Nat.le_refl _
  createdNil := rfl
  startsSorted := List.Pairwise.nil
  startsRange := by intro ι h; simp [cbInsts] at h
  endsEq := rfl
  ndNodup := List.nodup_nil
  ndLt := by intro e h; simp at h
  ndSrc := by intro e h; simp at h
  epsNotEnded := by intro _ e _ h; simp at h
  epsSrc := by intro e he; exact Or.inl ⟨e, he, rfl⟩

theorem EFacts_trans {σ : Type} {M : Nat} {l l1 l2 : ELoop σ} {Δ1 Δ2 : List REvent}
    {nd1 nd2 : List SingleAgentEpisode}
    (f1 : EFacts M l l1 Δ1 nd1) (f2 : EFacts M l1 l2 Δ2 nd2)
    (hmid : l1.epsCount < M) :
    EFacts M l l2 (Δ1 ++ Δ2) (nd1 ++ nd2) where
  logEq := by rw [f2.logEq, f1.logEq, List.append_assoc]
  doneEq := by rw [f2.doneEq, f1.doneEq, List.append_assoc]
  instMono := Nat.le_trans f1.instMono f2.instMono
  createdNil := by rw [cbInsts_append, f1.createdNil, f2.createdNil]; rfl
  startsSorted := by
    rw [cbInsts_append, List.pairwise_append]
    refine ⟨f1.startsSorted, f2.startsSorted, ?_⟩
    intro x hx y hy
    have h1 := (f1.startsRange x hx).2
    have h2 := (f2.startsRange y hy).1
    omega
  startsRange := by
    intro ι hι
    rw [cbInsts_append, List.mem_append] at hι
    rcases hι with h | h
    · have := f1.startsRange ι h
      have := f2.instMono
      omega
    · have := f2.startsRange ι h
      have := f1.instMono
      omega
  endsEq := by rw [cbInsts_append, f1.endsEq, f2.endsEq, List.map_append]
  ndNodup := by
    rw [List.map_append, List.nodup_append]
    refine ⟨f1.ndNodup, f2.ndNodup, ?_⟩
    intro x hx hx2
    obtain ⟨e1, he1, rfl⟩ := List.mem_map.mp hx
    obtain ⟨e2, he2, hEq⟩ := List.mem_map.mp hx2
    rcases f2.ndSrc e2 he2 with ⟨e0, he0, hinst⟩ | hge
    · apply f1.epsNotEnded hmid e0 he0
      rw [← hinst, hEq]
      exact List.mem_map_of_mem _ he1
    · have := f1.ndLt e1 he1
      omega
  ndLt := by
    intro e he
    rcases List.mem_append.mp he with h | h
    · have := f1.ndLt e h
      have := f2.instMono
      omega
    · exact f2.ndLt e h
  ndSrc := by
    intro e he
    rcases List.mem_append.mp he with h | h
    · exact f1.ndSrc e h
    · rcases f2.ndSrc e h with ⟨e0, he0, hinst⟩ | hge
      · rcases f1.epsSrc e0 he0 with ⟨e00, he00, hinst0⟩ | hge0
        · exact Or.inl ⟨e00, he00, by omega⟩
        · exact Or.inr (by omega)
      · have := f1.instMono
        exact Or.inr (by omega)
  epsNotEnded := by
    intro hcond e he
    rw [List.map_append, List.mem_append]
    rintro (h | h)
    · rcases f2.epsSrc e he with ⟨e0, he0, hinst⟩ | hge
      · apply f1.epsNotEnded hmid e0 he0
        rw [← hinst]
        exact h
      · obtain ⟨e1, he1, hEq⟩ := List.mem_map.mp h
        have := f1.ndLt e1 he1
        omega
    · exact f2.epsNotEnded hcond e he h
  epsSrc := by
    intro e he
    rcases f2.epsSrc e he with ⟨e0, he0, hinst⟩ | hge
    · rcases f1.epsSrc e0 he0 with ⟨e00, he00, hinst0⟩ | hge0
      · exact Or.inl ⟨e00, he00, by omega⟩
      · exact Or.inr (by omega)
    · have := f1.instMono
      exact Or.inr (by omega)

theorem eLoop_exit_of_ge {σ : Type} [Inhabited σ] (env : VecEnv)
    (module : Option (RLModule σ)) (explore randomActions : Bool) (M : Nat)
    (fuel : Nat) (l : ELoop σ) (h : ¬ l.epsCount < M) :
    eLoop env module explore randomActions M fuel l = .ok (some l) := by
  cases fuel <;> simp [eLoop, h]

theorem eSlotOne_facts {σ : Type} [Inhabited σ] (initOpt : Option σ) (M : Nat)
    (acts logp : Nat → Int) (entries : List (String × (Nat → Int)))
    (out : EnvStepOut) (l : ELoop σ) (i : Nat)
    (hi : i < l.episodes.length) (hlt : l.epsCount < M) (hInv : EInv l) :
    EInv (eSlotOne initOpt M acts logp entries out l i).1 ∧
    (eSlotOne initOpt M acts logp entries out l i).1.episodes.length
      = l.episodes.length ∧
    ((eSlotOne initOpt M acts logp entries out l i).2 = false →
      (eSlotOne initOpt M acts logp entries out l i).1.epsCount < M) ∧
    ∃ Δ nd, EFacts M l (eSlotOne initOpt M acts logp entries out l i).1 Δ nd := by
  obtain ⟨hBnd, hNd⟩ := hInv
  have hmem0 : l.episodes.getD i default ∈ l.episodes := list_getD_mem _ _ _ hi
  by_cases hd : (out.terminateds i || out.truncateds i) = true
  · set ep0 := (l.episodes.getD i default).addEnvStep (out.finalObs i) (acts i)
      (out.rewards i) (out.finalInfos i) (extraModelOutputE entries logp i)
      (out.terminateds i) (out.truncateds i) with hep0
    have hep0inst : ep0.inst = (l.episodes.getD i default).inst := rfl
    have hfin : (SingleAgentEpisode.finalize ep0).inst = ep0.inst := rfl
    have hep0lt : ep0.inst < l.nextInst := by
      rw [hep0inst]
      exact hBnd _ hmem0
    by_cases hMeq : l.epsCount + 1 = M
    · -- break: the finishing slot keeps its completed episode, no replacement
      have heps : (eSlotOne initOpt M acts logp entries out l i).1.episodes
          = l.episodes.set i ep0.finalize := by
        simp [eSlotOne, hd, hMeq, List.set_set, hep0]
      have hlog : (eSlotOne initOpt M acts logp entries out l i).1.log
          = l.log ++ [REvent.cb "on_episode_step" ep0.id_ ep0.inst,
              REvent.cb "on_episode_end" ep0.id_ ep0.inst] := by
        simp [eSlotOne, hd, hMeq, hep0]
      have hdoneAcc : (eSlotOne initOpt M acts logp entries out l i).1.doneAcc
          = l.doneAcc ++ [ep0.finalize] := by
        simp [eSlotOne, hd, hMeq, hep0]
      have hninst : (eSlotOne initOpt M acts logp entries out l i).1.nextInst
          = l.nextInst := by
        simp [eSlotOne, hd, hMeq]
      have hcount : (eSlotOne initOpt M acts logp entries out l i).1.epsCount = M := by
        simp [eSlotOne, hd, hMeq]
      have hbr : (eSlotOne initOpt M acts logp entries out l i).2 = true := by
        simp [eSlotOne, hd, hMeq]
      refine ⟨⟨?_, ?_⟩, ?_, ?_, ?_⟩
      · intro e he
        rw [heps] at he
        rw [hninst]
        rcases List.mem_or_eq_of_mem_set he with h | rfl
        · exact hBnd e h
        · rw [hfin, hep0inst]
          exact hBnd _ hmem0
      · rw [heps, List.map_set]
        have h1 : (SingleAgentEpisode.finalize ep0).inst
            = (l.episodes.map (fun e => e.inst)).getD i
              ((default : SingleAgentEpisode).inst) := by
          rw [list_getD_map]
          rfl
        rw [h1, list_set_getD_self _ _ _ (by simpa using hi)]
        exact hNd
      · rw [heps]
        simp
      · intro hcon
        rw [hbr] at hcon
        exact absurd hcon (by decide)
      · refine ⟨[REvent.cb "on_episode_step" ep0.id_ ep0.inst,
            REvent.cb "on_episode_end" ep0.id_ ep0.inst], [ep0.finalize], ?_⟩
        have hends : cbInsts "on_episode_end"
            [REvent.cb "on_episode_step" ep0.id_ ep0.inst,
             REvent.cb "on_episode_end" ep0.id_ ep0.inst] = [ep0.inst] := by
          simp [cbInsts]
        refine
          { logEq := hlog
            doneEq := hdoneAcc
            instMono := by rw [hninst]
            createdNil := by simp [cbInsts]
            startsSorted := by simp [cbInsts]
            startsRange := by
              intro ι hι
              simp [cbInsts] at hι
            endsEq := by rw [hends]; rfl
            ndNodup := by simp
            ndLt := ?_
            ndSrc := ?_
            epsNotEnded := ?_
            epsSrc := ?_ }
        · intro e he
          rw [List.mem_singleton.mp he, hninst, hfin]
          exact hep0lt
        · intro e he
          rw [List.mem_singleton.mp he]
          exact Or.inl ⟨l.episodes.getD i default, hmem0, rfl⟩
        · intro hcond
          rw [hcount] at hcond
          exact absurd hcond (Nat.lt_irrefl M)
        · intro e he
          rw [heps] at he
          rcases List.mem_or_eq_of_mem_set he with h | rfl
          · exact Or.inl ⟨e, h, rfl⟩
          · exact Or.inl ⟨l.episodes.getD i default, hmem0, rfl⟩
    · -- completion with replacement: `on_episode_start` only, no `created`
      set newEp0 := SingleAgentEpisode.newWithReset l.nextId l.nextInst
        (out.obs i) (out.infos i) with hnewEp0
      have hnewinst : newEp0.inst = l.nextInst := rfl
      have heps : (eSlotOne initOpt M acts logp entries out l i).1.episodes
          = l.episodes.set i newEp0 := by
        simp [eSlotOne, hd, hMeq, List.set_set, hep0, hnewEp0]
      have hlog : (eSlotOne initOpt M acts logp entries out l i).1.log
          = l.log ++ [REvent.cb "on_episode_step" ep0.id_ ep0.inst,
              REvent.cb "on_episode_end" ep0.id_ ep0.inst,
              REvent.cb "on_episode_start" l.nextId l.nextInst] := by
        simp [eSlotOne, hd, hMeq, hep0, hnewEp0, SingleAgentEpisode.newWithReset]
      have hdoneAcc : (eSlotOne initOpt M acts logp entries out l i).1.doneAcc
          = l.doneAcc ++ [ep0.finalize] := by
        simp [eSlotOne, hd, hMeq, hep0]
      have hninst : (eSlotOne initOpt M acts logp entries out l i).1.nextInst
          = l.nextInst + 1 := by
        simp [eSlotOne, hd, hMeq]
      have hcount : (eSlotOne initOpt M acts logp entries out l i).1.epsCount
          = l.epsCount + 1 := by
        simp [eSlotOne, hd, hMeq]
      refine ⟨⟨?_, ?_⟩, ?_, ?_, ?_⟩
      · intro e he
        rw [heps] at he
        rw [hninst]
        rcases List.mem_or_eq_of_mem_set he with h | rfl
        · have := hBnd e h
          omega
        · rw [hnewinst]
          omega
      · rw [heps, List.map_set]
        apply nodup_set_of_not_mem _ _ _ hNd
        intro hcon
        obtain ⟨e, he, hEq⟩ := List.mem_map.mp hcon
        have := hBnd e he
        rw [hnewinst] at hEq
        omega
      · rw [heps]
        simp
      · intro _
        rw [hcount]
        omega
      · refine ⟨[REvent.cb "on_episode_step" ep0.id_ ep0.inst,
            REvent.cb "on_episode_end" ep0.id_ ep0.inst,
            REvent.cb "on_episode_start" l.nextId l.nextInst],
          [ep0.finalize], ?_⟩
        have hstarts : cbInsts "on_episode_start"
            [REvent.cb "on_episode_step" ep0.id_ ep0.inst,
             REvent.cb "on_episode_end" ep0.id_ ep0.inst,
             REvent.cb "on_episode_start" l.nextId l.nextInst] = [l.nextInst] := by
          simp [cbInsts]
        have hends : cbInsts "on_episode_end"
            [REvent.cb "on_episode_step" ep0.id_ ep0.inst,
             REvent.cb "on_episode_end" ep0.id_ ep0.inst,
             REvent.cb "on_episode_start" l.nextId l.nextInst] = [ep0.inst] := by
          simp [cbInsts]
        refine
          { logEq := hlog
            doneEq := hdoneAcc
            instMono := by rw [hninst]; omega
            createdNil := by simp [cbInsts]
            startsSorted := by rw [hstarts]; simp
            startsRange := by
              rw [hstarts, hninst]
              intro ι hι
              rw [List.mem_singleton.mp hι]
              omega
            endsEq := by rw [hends]; rfl
            ndNodup := by simp
            ndLt := ?_
            ndSrc := ?_
            epsNotEnded := ?_
            epsSrc := ?_ }
        · intro e he
          rw [List.mem_singleton.mp he, hninst, hfin]
          omega
        · intro e he
          rw [List.mem_singleton.mp he]
          exact Or.inl ⟨l.episodes.getD i default, hmem0, rfl⟩
        · intro _ e he
          rw [heps] at he
          simp only [List.map_cons, List.map_nil, List.mem_singleton]
          rw [hfin]
          rcases episodes_set_mem l.episodes i newEp0 hi hNd e he with rfl | ⟨_, hne⟩
          · rw [hnewinst]
            omega
          · rw [hep0inst]
            exact hne
        · intro e he
          rw [heps] at he
          rcases List.mem_or_eq_of_mem_set he with h | rfl
          · exact Or.inl ⟨e, h, rfl⟩
          · rw [hnewinst]
            exact Or.inr (Nat.le_refl _)
  · -- ordinary step: no lifecycle callback at all
    set ep1 := (l.episodes.getD i default).addEnvStep (out.obs i) (acts i)
      (out.rewards i) (out.infos i) (extraModelOutputE entries logp i)
      false false with hep1
    have hep1inst : ep1.inst = (l.episodes.getD i default).inst := rfl
    have heps : (eSlotOne initOpt M acts logp entries out l i).1.episodes
        = l.episodes.set i ep1 := by
      simp [eSlotOne, hd, hep1]
    have hlog : (eSlotOne initOpt M acts logp entries out l i).1.log
        = l.log ++ [REvent.cb "on_episode_step" ep1.id_ ep1.inst] := by
      simp [eSlotOne, hd, hep1]
    have hdoneAcc : (eSlotOne initOpt M acts logp entries out l i).1.doneAcc
        = l.doneAcc := by
      simp [eSlotOne, hd]
    have hninst : (eSlotOne initOpt M acts logp entries out l i).1.nextInst
        = l.nextInst := by
      simp [eSlotOne, hd]
    have hcount : (eSlotOne initOpt M acts logp entries out l i).1.epsCount
        = l.epsCount := by
      simp [eSlotOne, hd]
    refine ⟨⟨?_, ?_⟩, ?_, ?_, ?_⟩
    · intro e he
      rw [heps] at he
      rw [hninst]
      rcases List.mem_or_eq_of_mem_set he with h | rfl
      · exact hBnd e h
      · rw [hep1inst]
        exact hBnd _ hmem0
    · rw [heps, List.map_set]
      have h1 : ep1.inst = (l.episodes.map (fun e => e.inst)).getD i
          ((default : SingleAgentEpisode).inst) := by
        rw [list_getD_map]
        rfl
      rw [h1, list_set_getD_self _ _ _ (by simpa using hi)]
      exact hNd
    · rw [heps]
      simp
    · intro _
      rw [hcount]
      exact hlt
    · refine ⟨[REvent.cb "on_episode_step" ep1.id_ ep1.inst], [], ?_⟩
      refine
        { logEq := hlog
          doneEq := by rw [hdoneAcc]; simp
          instMono := by rw [hninst]
          createdNil := by simp [cbInsts]
          startsSorted := by simp [cbInsts]
          startsRange := by
            intro ι hι
            simp [cbInsts] at hι
          endsEq := by simp [cbInsts]
          ndNodup := by simp
          ndLt := by intro e he; simp at he
          ndSrc := by intro e he; simp at he
          epsNotEnded := by
            intro _ e _ hcon
            simp at hcon
          epsSrc := ?_ }
      intro e he
      rw [heps] at he
      rcases List.mem_or_eq_of_mem_set he with h | rfl
      · exact Or.inl ⟨e, h, rfl⟩
      · exact Or.inl ⟨l.episodes.getD i default, hmem0, hep1inst⟩

theorem eProcessSlots_facts {σ : Type} [Inhabited σ] (initOpt : Option σ) (M : Nat)
    (acts logp : Nat → Int) (entries : List (String × (Nat → Int))) (out : EnvStepOut) :
    ∀ (slots : List Nat) (l : ELoop σ), EInv l → l.epsCount < M →
      (∀ j ∈ slots, j < l.episodes.length) →
      EInv (eProcessSlots initOpt M acts logp entries out l slots) ∧
      (eProcessSlots initOpt M acts logp entries out l slots).episodes.length
        = l.episodes.length ∧
      ∃ Δ nd, EFacts M l (eProcessSlots initOpt M acts logp entries out l slots) Δ nd := by
  intro slots
  induction slots with
  | nil =>
    intro l hInv _ _
    exact ⟨hInv, rfl, [], [], EFacts_refl M l⟩
  | cons i rest ih =>
    intro l hInv hlt hb
    have hi : i < l.episodes.length := hb i (List.mem_cons_self i rest)
    obtain ⟨hInv1, hlen1, hbrlt, Δ1, nd1, hf1⟩ :=
      eSlotOne_facts initOpt M acts logp entries out l i hi hlt hInv
    simp only [eProcessSlots]
    by_cases hbr : (eSlotOne initOpt M acts logp entries out l i).2 = true
    · rw [hbr]
      simp only [if_true]
      exact ⟨hInv1, hlen1, Δ1, nd1, hf1⟩
    · rw [Bool.not_eq_true] at hbr
      rw [hbr]
      simp only [Bool.false_eq_true, if_false]
      have hlt1 := hbrlt hbr
      obtain ⟨hInv2, hlen2, Δ2, nd2, hf2⟩ :=
        ih (eSlotOne initOpt M acts logp entries out l i).1 hInv1 hlt1
          (fun j hj => by rw [hlen1]; exact hb j (List.mem_cons_of_mem i hj))
      exact ⟨hInv2, by rw [hlen2, hlen1], Δ1 ++ Δ2, nd1 ++ nd2,
        EFacts_trans hf1 hf2 hlt1⟩

theorem eStepOnce_facts {σ : Type} [Inhabited σ] (env : VecEnv)
    (module : Option (RLModule σ)) (explore randomActions : Bool) (M : Nat)
    (l l' : ELoop σ) (hres : eStepOnce env module explore randomActions M l = .ok l')
    (hlt : l.epsCount < M) (hInv : EInv l) (hlen : l.episodes.length = env.numEnvs) :
    EInv l' ∧ l'.episodes.length = env.numEnvs ∧ ∃ Δ nd, EFacts M l l' Δ nd := by
  unfold eStepOnce at hres
  cases hact : actPhase env module explore randomActions l.envState l.states l.obs with
  | error e => rw [hact] at hres; exact absurd hres (by simp)
  | ok a =>
    rw [hact] at hres
    simp only [Except.ok.injEq] at hres
    subst hres
    set l1 : ELoop σ :=
      { l with envState := (env.stepFn a.envState a.acts).2,
               obs := (env.stepFn a.envState a.acts).1.obs, states := a.states,
               log := l.log ++ [REvent.envStep] } with hl1
    have hInv1 : EInv l1 := hInv
    have hlt1 : l1.epsCount < M := hlt
    have hf1 : EFacts M l l1 [REvent.envStep] [] :=
      { logEq := rfl
        doneEq := by simp
        instMono := Nat.le_refl _
        createdNil := rfl
        startsSorted := by simp [cbInsts]
        startsRange := by intro ι hι; simp [cbInsts] at hι
        endsEq := rfl
        ndNodup := by simp
        ndLt := by intro e he; simp at he
        ndSrc := by intro e he; simp at he
        epsNotEnded := by intro _ e _ hcon; simp at hcon
        epsSrc := by intro e he; exact Or.inl ⟨e, he, rfl⟩ }
    obtain ⟨hInv2, hlen2, Δ2, nd2, hf2⟩ := eProcessSlots_facts (initialStatesOf module)
      M a.acts a.logp a.entries (env.stepFn a.envState a.acts).1
      (List.range env.numEnvs) l1 hInv1 hlt1
      (fun j hj => by
        have : l1.episodes.length = env.numEnvs := hlen
        rw [this]
        exact List.mem_range.mp hj)
    refine ⟨hInv2, ?_, [REvent.envStep] ++ Δ2, [] ++ nd2, EFacts_trans hf1 hf2 hlt1⟩
    rw [hlen2]
    exact hlen

theorem eLoop_facts {σ : Type} [Inhabited σ] (env : VecEnv)
    (module : Option (RLModule σ)) (explore randomActions : Bool) (M : Nat) :
    ∀ (fuel : Nat) (l lf : ELoop σ),
      eLoop env module explore randomActions M fuel l = .ok (some lf) →
      EInv l → l.episodes.length = env.numEnvs →
      EInv lf ∧ ∃ Δ nd, EFacts M l lf Δ nd := by
  intro fuel
  induction fuel with
  | zero =>
    intro l lf hres hInv hlen
    simp only [eLoop] at hres
    by_cases hlt : l.epsCount < M
    · rw [if_pos hlt] at hres
      exact absurd hres (by simp)
    · rw [if_neg hlt] at hres
      simp only [Except.ok.injEq, Option.some.injEq] at hres
      subst hres
      exact ⟨hInv, [], [], EFacts_refl M l⟩
  | succ fuel ih =>
    intro l lf hres hInv hlen
    simp only [eLoop] at hres
    by_cases hlt : l.epsCount < M
    · rw [if_pos hlt] at hres
      cases hstep : eStepOnce env module explore randomActions M l with
      | error e => rw [hstep] at hres; exact absurd hres (by simp)
      | ok l1 =>
        rw [hstep] at hres
        have hres2 : eLoop env module explore randomActions M fuel l1
            = .ok (some lf) := hres
        obtain ⟨hInv1, hlen1, Δ1, nd1, hf1⟩ :=
          eStepOnce_facts env module explore randomActions M l l1 hstep hlt hInv hlen
        by_cases hl1 : l1.epsCount < M
        · obtain ⟨hInv2, Δ2, nd2, hf2⟩ := ih l1 lf hres2 hInv1 hlen1
          exact ⟨hInv2, Δ1 ++ Δ2, nd1 ++ nd2, EFacts_trans hf1 hf2 hl1⟩
        · rw [eLoop_exit_of_ge env module explore randomActions M fuel l1 hl1] at hres2
          simp only [Except.ok.injEq, Option.some.injEq] at hres2
          subst hres2
          exact ⟨hInv1, Δ1, nd1, hf1⟩
    · rw [if_neg hlt] at hres
      simp only [Except.ok.injEq, Option.some.injEq] at hres
      subst hres
      exact ⟨hInv, [], [], EFacts_refl M l⟩

/-- C6 (amended): engine-wide — over a `_sample_timesteps` call from a
reachable state and over any returning `_sample_episodes` call — each
episode instance receives at most one `on_episode_created` and at most
one `on_episode_start` callback, and an instance that receives
`on_episode_created` (only the reset-block episodes of lines 197-212 and
497-507 do) also receives `on_episode_start`; the converse fails:
replacement episodes (lines 336-340 and 512-522) receive
`on_episode_start` without `on_episode_created`, and the cut
continuations kept in the slots receive no callback at all in the call
that creates them.  `on_episode_end` fires exactly once for each
returned done episode and never for a returned cut chunk (which is
neither terminated nor truncated). -/
theorem c6_amended_callback_lifecycle {σ : Type} [Inhabited σ] (env : VecEnv)
    (T fuel M : Nat) (explore randomActions forceReset withRenderData : Bool)
    (st st2 : RunnerState σ) (samples samples2 : List SingleAgentEpisode)
    (st' st2' : RunnerState σ)
    (hlen : st.episodes.length = env.numEnvs)
    (hinstB : ∀ e ∈ st.episodes, e.inst < st.nextInst)
    (hinstNd : (st.episodes.map (fun e => e.inst)).Nodup)
    (hflag : ∀ e ∈ st.episodes, e.isDone = false)
    (hresT : sampleTimesteps env T explore randomActions forceReset st
      = .ok (some (samples, st')))
    (hresE : sampleEpisodes env fuel M explore randomActions withRenderData st2
      = .ok (some (samples2, st2'))) :
    (∃ (Δ : List REvent) (doneEps ongoing : List SingleAgentEpisode),
      st'.log = st.log ++ Δ ∧
      samples = doneEps ++ ongoing ∧
      (∀ ι, (cbInsts "on_episode_created" Δ).count ι ≤ 1) ∧
      (∀ ι, (cbInsts "on_episode_start" Δ).count ι ≤ 1) ∧
      (∀ ι, (cbInsts "on_episode_created" Δ).count ι = 1 →
        (cbInsts "on_episode_start" Δ).count ι = 1) ∧
      (∀ ι, (cbInsts "on_episode_end" Δ).count ι ≤ 1) ∧
      (∀ e ∈ doneEps, e.isDone = true ∧
        (cbInsts "on_episode_end" Δ).count e.inst = 1) ∧
      (∀ e ∈ ongoing, e.terminated = false ∧ e.truncated = false ∧
        (cbInsts "on_episode_end" Δ).count e.inst = 0) ∧
      (∀ e ∈ st'.episodes,
        (cbInsts "on_episode_created" Δ).count e.inst = 0 ∧
        (cbInsts "on_episode_start" Δ).count e.inst = 0 ∧
        (cbInsts "on_episode_end" Δ).count e.inst = 0)) ∧
    (∃ (Δ2 : List REvent),
      st2'.log = st2.log ++ Δ2 ∧
      (∀ ι, (cbInsts "on_episode_created" Δ2).count ι ≤ 1) ∧
      (∀ ι, (cbInsts "on_episode_start" Δ2).count ι ≤ 1) ∧
      (∀ ι, (cbInsts "on_episode_created" Δ2).count ι = 1 →
        (cbInsts "on_episode_start" Δ2).count ι = 1) ∧
      (∀ ι, (cbInsts "on_episode_end" Δ2).count ι ≤ 1) ∧
      (∀ e ∈ samples2, e.isDone = true ∧
        (cbInsts "on_episode_end" Δ2).count e.inst = 1)) := by
  constructor
  · -- `_sample_timesteps` part
    unfold sampleTimesteps at hresT
    simp only [] at hresT
    set l0 : TLoop σ :=
      if forceReset || st.needsInitialReset then tsResetEntry env st
      else tsResumeEntry st with hl0
    have hl0len : l0.episodes.length = env.numEnvs := by
      rw [hl0]
      by_cases hc : (forceReset || st.needsInitialReset) = true
      · simp [hc, tsResetEntry]
      · rw [Bool.not_eq_true] at hc
        simp [hc, tsResumeEntry, hlen]
    have hl0inv : TInv l0 := by
      rw [hl0]
      by_cases hc : (forceReset || st.needsInitialReset) = true
      · rw [if_pos hc]
        exact tsResetEntry_inv env st
      · rw [Bool.not_eq_true] at hc
        rw [hc]
        simp only [Bool.false_eq_true, if_false]
        exact ⟨hinstB, hinstNd, hflag⟩
    have hentry : ∃ (δ0 : List REvent) (B : List Nat), l0.log = st.log ++ δ0 ∧
        cbInsts "on_episode_created" δ0 = B ∧
        cbInsts "on_episode_start" δ0 = B ∧
        cbInsts "on_episode_end" δ0 = [] ∧
        B.Nodup ∧ (∀ ι ∈ B, ι < l0.nextInst) ∧ l0.doneAcc = [] := by
      rw [hl0]
      by_cases hc : (forceReset || st.needsInitialReset) = true
      · rw [if_pos hc]
        refine ⟨(List.range env.numEnvs).map (fun i =>
            REvent.cb "on_episode_created" (st.nextId + i) (st.nextInst + i))
          ++ [REvent.envReset]
          ++ (List.range env.numEnvs).map (fun i =>
            REvent.cb "on_episode_start" (st.nextId + i) (st.nextInst + i)),
          (List.range env.numEnvs).map (fun i => st.nextInst + i),
          ?_, ?_, ?_, ?_, ?_, ?_, rfl⟩
        · simp [tsResetEntry, List.append_assoc]
        · rw [cbInsts_append, cbInsts_append, cbInsts_block_self,
            cbInsts_block_other _ _ _ _ _ (by decide)]
          have hmid : cbInsts "on_episode_created" [REvent.envReset] = [] := rfl
          rw [hmid]
          simp
        · rw [cbInsts_append, cbInsts_append, cbInsts_block_self,
            cbInsts_block_other _ _ _ _ _ (by decide)]
          have hmid : cbInsts "on_episode_start" [REvent.envReset] = [] := rfl
          rw [hmid]
          simp
        · rw [cbInsts_append, cbInsts_append,
            cbInsts_block_other _ _ _ _ _ (by decide),
            cbInsts_block_other _ _ _ _ _ (by decide)]
          rfl
        · exact List.Nodup.map (fun a b h => by omega) (List.nodup_range _)
        · intro ι hι
          obtain ⟨i, hi, rfl⟩ := List.mem_map.mp hι
          have := List.mem_range.mp hi
          show st.nextInst + i < (tsResetEntry env st).nextInst
          simp only [tsResetEntry]
          omega
      · rw [Bool.not_eq_true] at hc
        rw [hc]
        simp only [Bool.false_eq_true, if_false]
        refine ⟨[], [], by simp [tsResumeEntry], rfl, rfl, rfl, List.nodup_nil, ?_, rfl⟩
        intro ι hι
        exact absurd hι (List.not_mem_nil ι)
    cases hloop : tsLoop env st.module explore randomActions T T l0 0 with
    | error e => rw [hloop] at hresT; exact absurd hresT (by simp)
    | ok o =>
      cases o with
      | none => rw [hloop] at hresT; exact absurd hresT (by simp)
      | some p =>
        obtain ⟨lf, tsf⟩ := p
        rw [hloop] at hresT
        simp only [Except.ok.injEq, Option.some.injEq] at hresT
        have hsamples : samples = (tsExit st lf tsf).1 := by rw [hresT]
        have hst2 : st' = (tsExit st lf tsf).2 := by rw [hresT]
        obtain ⟨hInvf, Δ, nd, hf⟩ := tsLoop_facts env st.module explore randomActions T T
          l0 0 lf tsf hloop hl0inv hl0len
        obtain ⟨δ0, B, hδlog, hδcr, hδst, hδen, hBnd, hBlt, hδdone⟩ := hentry
        have hdoneAcc : lf.doneAcc = nd := by
          rw [hf.doneEq, hδdone]
          simp
        have hCr : cbInsts "on_episode_created" (δ0 ++ Δ) = B := by
          rw [cbInsts_append, hδcr, hf.createdNil, List.append_nil]
        have hSt : cbInsts "on_episode_start" (δ0 ++ Δ)
            = B ++ cbInsts "on_episode_start" Δ := by
          rw [cbInsts_append, hδst]
        have hEn : cbInsts "on_episode_end" (δ0 ++ Δ) = nd.map (fun e => e.inst) := by
          rw [cbInsts_append, hδen, hf.endsEq]
          rfl
        have hSnd : (cbInsts "on_episode_start" Δ).Nodup :=
          List.Pairwise.imp (fun h => Nat.ne_of_lt h) hf.startsSorted
        have hBnotS : ∀ ι ∈ B, ι ∉ cbInsts "on_episode_start" Δ := by
          intro ι hιB hιS
          have h1 := hBlt ι hιB
          have h2 := (hf.startsRange ι hιS).1
          omega
        refine ⟨δ0 ++ Δ, nd,
          (lf.episodes.filter (fun e => 0 < e.t)).map SingleAgentEpisode.finalize,
          ?_, ?_, ?_, ?_, ?_, ?_, ?_, ?_, ?_⟩
        · rw [hst2]
          show lf.log = st.log ++ (δ0 ++ Δ)
          rw [hf.logEq, hδlog, List.append_assoc]
        · rw [hsamples]
          show lf.doneAcc ++ _ = _
          rw [hdoneAcc]
        · intro ι
          rw [hCr]
          exact List.nodup_iff_count_le_one.mp hBnd ι
        · intro ι
          rw [hSt, List.count_append]
          by_cases hb : ι ∈ B
          · rw [List.count_eq_one_of_mem hBnd hb,
              List.count_eq_zero.mpr (hBnotS ι hb)]
          · rw [List.count_eq_zero.mpr hb]
            have := List.nodup_iff_count_le_one.mp hSnd ι
            omega
        · intro ι hcr
          rw [hCr] at hcr
          have hb : ι ∈ B := by
            by_contra hnb
            rw [List.count_eq_zero.mpr hnb] at hcr
            exact absurd hcr (by decide)
          rw [hSt, List.count_append,
            List.count_eq_one_of_mem hBnd hb,
            List.count_eq_zero.mpr (hBnotS ι hb)]
        · intro ι
          rw [hEn]
          exact List.nodup_iff_count_le_one.mp hf.ndNodup ι
        · intro e he
          refine ⟨hf.ndDone e he, ?_⟩
          rw [hEn]
          exact List.count_eq_one_of_mem hf.ndNodup (List.mem_map_of_mem _ he)
        · intro e he
          obtain ⟨e0, he0f, rfl⟩ := List.mem_map.mp he
          have he0 : e0 ∈ lf.episodes := List.mem_of_mem_filter he0f
          have hnd0 : e0.isDone = false := hInvf.2.2 e0 he0
          have hterm : e0.terminated = false ∧ e0.truncated = false := by
            simpa [SingleAgentEpisode.isDone] using hnd0
          have hni : e0.inst ∉ nd.map (fun e => e.inst) := hf.epsNotEnded e0 he0
          refine ⟨hterm.1, hterm.2, ?_⟩
          rw [hEn]
          exact List.count_eq_zero.mpr hni
        · intro e he
          rw [hst2] at he
          have he2 : e ∈ (List.range lf.episodes.length).map
              (fun i => (lf.episodes.getD i default).cut (lf.nextInst + i)) := he
          obtain ⟨i, hi, rfl⟩ := List.mem_map.mp he2
          have hei : ((lf.episodes.getD i default).cut (lf.nextInst + i)).inst
              = lf.nextInst + i := rfl
          refine ⟨?_, ?_, ?_⟩
          · rw [hCr, List.count_eq_zero, hei]
            intro hmem
            have h1 := hBlt _ hmem
            have h2 := hf.instMono
            omega
          · rw [hSt, List.count_eq_zero, hei]
            intro hmem
            rcases List.mem_append.mp hmem with h | h
            · have h1 := hBlt _ h
              have h2 := hf.instMono
              omega
            · have := (hf.startsRange _ h).2
              omega
          · rw [hEn, List.count_eq_zero, hei]
            intro hmem
            obtain ⟨e1, he1, hEq⟩ := List.mem_map.mp hmem
            have := hf.ndLt e1 he1
            omega
  · -- `_sample_episodes` part
    unfold sampleEpisodes at hresE
    simp only [] at hresE
    set l0e : ELoop σ :=
      { envState := (env.resetFn st2.envState).2.2
        obs := (env.resetFn st2.envState).1
        states := fun _ => (initialStatesOf st2.module).getD default
        episodes := (List.range env.numEnvs).map (fun i =>
          (SingleAgentEpisode.new (st2.nextId + i) (st2.nextInst + i)).addEnvReset
            ((env.resetFn st2.envState).1 i) ((env.resetFn st2.envState).2.1 i))
        doneAcc := []
        epsCount := 0
        nextId := st2.nextId + env.numEnvs
        nextInst := st2.nextInst + env.numEnvs
        log := st2.log ++ [REvent.envReset]
          ++ (List.range env.numEnvs).map (fun i =>
              REvent.cb "on_episode_created" (st2.nextId + i) (st2.nextInst + i))
          ++ (List.range env.numEnvs).map (fun i =>
              REvent.cb "on_episode_start" (st2.nextId + i) (st2.nextInst + i)) }
      with hl0e
    cases hloopE : eLoop env st2.module explore randomActions M fuel l0e with
    | error e => rw [hloopE] at hresE; exact absurd hresE (by simp)
    | ok o =>
      cases o with
      | none => rw [hloopE] at hresE; exact absurd hresE (by simp)
      | some lf2 =>
        rw [hloopE] at hresE
        simp only [Except.ok.injEq, Option.some.injEq, Prod.mk.injEq] at hresE
        obtain ⟨hsamples2, hst2e⟩ := hresE
        have hinv0e : EpisodesInv M l0e := ⟨rfl, Nat.zero_le M, by simp [hl0e]⟩
        obtain ⟨hinvfE, hcountE⟩ :=
          eLoop_inv_exit env st2.module explore randomActions M fuel l0e lf2 hinv0e hloopE
        have hEInv0 : EInv l0e := by
          constructor
          · intro e he
            simp only [hl0e, List.mem_map, List.mem_range] at he
            obtain ⟨i, hi, rfl⟩ := he
            simp only [hl0e]
            simp [SingleAgentEpisode.addEnvReset, SingleAgentEpisode.new]
            omega
          · simp only [hl0e, List.map_map]
            have hcomp : ((fun e => e.inst) ∘ fun i =>
                (SingleAgentEpisode.new (st2.nextId + i) (st2.nextInst + i)).addEnvReset
                  ((env.resetFn st2.envState).1 i) ((env.resetFn st2.envState).2.1 i))
                = fun i => st2.nextInst + i := rfl
            rw [hcomp]
            exact List.Nodup.map (fun a b h => by omega) (List.nodup_range _)
        have hlen0e : l0e.episodes.length = env.numEnvs := by simp [hl0e]
        obtain ⟨hEInvf, Δ2, nd2, hf2⟩ :=
          eLoop_facts env st2.module explore randomActions M fuel l0e lf2 hloopE
            hEInv0 hlen0e
        have hentry2 : ∃ (δ0 : List REvent) (B : List Nat),
            l0e.log = st2.log ++ δ0 ∧
            cbInsts "on_episode_created" δ0 = B ∧
            cbInsts "on_episode_start" δ0 = B ∧
            cbInsts "on_episode_end" δ0 = [] ∧
            B.Nodup ∧ (∀ ι ∈ B, ι < l0e.nextInst) ∧ l0e.doneAcc = [] := by
          refine ⟨[REvent.envReset]
            ++ (List.range env.numEnvs).map (fun i =>
                REvent.cb "on_episode_created" (st2.nextId + i) (st2.nextInst + i))
            ++ (List.range env.numEnvs).map (fun i =>
                REvent.cb "on_episode_start" (st2.nextId + i) (st2.nextInst + i)),
            (List.range env.numEnvs).map (fun i => st2.nextInst + i),
            ?_, ?_, ?_, ?_, ?_, ?_, ?_⟩
          · simp [hl0e, List.append_assoc]
          · rw [cbInsts_append, cbInsts_append, cbInsts_block_self,
              cbInsts_block_other _ _ _ _ _ (by decide)]
            have hmid : cbInsts "on_episode_created" [REvent.envReset] = [] := rfl
            rw [hmid]
            simp
          · rw [cbInsts_append, cbInsts_append, cbInsts_block_self,
              cbInsts_block_other _ _ _ _ _ (by decide)]
            have hmid : cbInsts "on_episode_start" [REvent.envReset] = [] := rfl
            rw [hmid]
            simp
          · rw [cbInsts_append, cbInsts_append,
              cbInsts_block_other _ _ _ _ _ (by decide),
              cbInsts_block_other _ _ _ _ _ (by decide)]
            rfl
          · exact List.Nodup.map (fun a b h => by omega) (List.nodup_range _)
          · intro ι hι
            obtain ⟨i, hi, rfl⟩ := List.mem_map.mp hι
            have := List.mem_range.mp hi
            simp only [hl0e]
            omega
          · simp [hl0e]
        obtain ⟨δ0e, B2, hδlog2, hδcr2, hδst2, hδen2, hB2nd, hB2lt, hδdone2⟩ := hentry2
        have hdoneAcc2 : lf2.doneAcc = nd2 := by
          rw [hf2.doneEq, hδdone2]
          simp
        have hCr2 : cbInsts "on_episode_created" (δ0e ++ Δ2) = B2 := by
          rw [cbInsts_append, hδcr2, hf2.createdNil, List.append_nil]
        have hSt2c : cbInsts "on_episode_start" (δ0e ++ Δ2)
            = B2 ++ cbInsts "on_episode_start" Δ2 := by
          rw [cbInsts_append, hδst2]
        have hEn2c : cbInsts "on_episode_end" (δ0e ++ Δ2)
            = nd2.map (fun e => e.inst) := by
          rw [cbInsts_append, hδen2, hf2.endsEq]
          rfl
        have hS2nd : (cbInsts "on_episode_start" Δ2).Nodup :=
          List.Pairwise.imp (fun h => Nat.ne_of_lt h) hf2.startsSorted
        have hB2notS : ∀ ι ∈ B2, ι ∉ cbInsts "on_episode_start" Δ2 := by
          intro ι hιB hιS
          have h1 := hB2lt ι hιB
          have h2 := (hf2.startsRange ι hιS).1
          omega
        refine ⟨δ0e ++ Δ2, ?_, ?_, ?_, ?_, ?_, ?_⟩
        · rw [← hst2e]
          show lf2.log = st2.log ++ (δ0e ++ Δ2)
          rw [hf2.logEq, hδlog2, List.append_assoc]
        · intro ι
          rw [hCr2]
          exact List.nodup_iff_count_le_one.mp hB2nd ι
        · intro ι
          rw [hSt2c, List.count_append]
          by_cases hb : ι ∈ B2
          · rw [List.count_eq_one_of_mem hB2nd hb,
              List.count_eq_zero.mpr (hB2notS ι hb)]
          · rw [List.count_eq_zero.mpr hb]
            have := List.nodup_iff_count_le_one.mp hS2nd ι
            omega
        · intro ι hcr
          rw [hCr2] at hcr
          have hb : ι ∈ B2 := by
            by_contra hnb
            rw [List.count_eq_zero.mpr hnb] at hcr
            exact absurd hcr (by decide)
          rw [hSt2c, List.count_append,
            List.count_eq_one_of_mem hB2nd hb,
            List.count_eq_zero.mpr (hB2notS ι hb)]
        · intro ι
          rw [hEn2c]
          exact List.nodup_iff_count_le_one.mp hf2.ndNodup ι
        · intro e he
          rw [← hsamples2] at he
          have hmemD : e ∈ lf2.doneAcc := List.mem_of_mem_filter he
          refine ⟨(hinvfE.2.2 e hmemD).1, ?_⟩
          rw [hEn2c]
          rw [hdoneAcc2] at hmemD
          exact List.count_eq_one_of_mem hf2.ndNodup (List.mem_map_of_mem _ hmemD)

def c6ERun : Except String (Option (List SingleAgentEpisode × RunnerState Int)) :=
  sampleEpisodes demoEnvDone 2 2 true true false demoRunner

theorem c6_witness :
    (∃ (Δ : List REvent) (doneEps ongoing : List SingleAgentEpisode),
      (okState demoRunner c6Run).log = demoRunner.log ++ Δ ∧
      okSamples c6Run = doneEps ++ ongoing ∧
      (∀ ι, (cbInsts "on_episode_created" Δ).count ι ≤ 1) ∧
      (∀ ι, (cbInsts "on_episode_start" Δ).count ι ≤ 1) ∧
      (∀ ι, (cbInsts "on_episode_created" Δ).count ι = 1 →
        (cbInsts "on_episode_start" Δ).count ι = 1) ∧
      (∀ ι, (cbInsts "on_episode_end" Δ).count ι ≤ 1) ∧
      (∀ e ∈ doneEps, e.isDone = true ∧
        (cbInsts "on_episode_end" Δ).count e.inst = 1) ∧
      (∀ e ∈ ongoing, e.terminated = false ∧ e.truncated = false ∧
        (cbInsts "on_episode_end" Δ).count e.inst = 0) ∧
      (∀ e ∈ (okState demoRunner c6Run).episodes,
        (cbInsts "on_episode_created" Δ).count e.inst = 0 ∧
        (cbInsts "on_episode_start" Δ).count e.inst = 0 ∧
        (cbInsts "on_episode_end" Δ).count e.inst = 0)) ∧
    (∃ (Δ2 : List REvent),
      (okState demoRunner c6ERun).log = demoRunner.log ++ Δ2 ∧
      (∀ ι, (cbInsts "on_episode_created" Δ2).count ι ≤ 1) ∧
      (∀ ι, (cbInsts "on_episode_start" Δ2).count ι ≤ 1) ∧
      (∀ ι, (cbInsts "on_episode_created" Δ2).count ι = 1 →
        (cbInsts "on_episode_start" Δ2).count ι = 1) ∧
      (∀ ι, (cbInsts "on_episode_end" Δ2).count ι ≤ 1) ∧
      (∀ e ∈ okSamples c6ERun, e.isDone = true ∧
        (cbInsts "on_episode_end" Δ2).count e.inst = 1)) :=
  c6_amended_callback_lifecycle demoEnvDone 1 2 2 true true false false
    demoRunner demoRunner (okSamples c6Run) (okSamples c6ERun)
    (okState demoRunner c6Run) (okState demoRunner c6ERun)
    rfl (by decide) (by decide) (by decide) (by rfl) (by rfl)
